import Mathlib

/-!
Verification of the odiphone package: a phonetic encoder that turns a
unicode Odia word into three Romanized keys of increasing specificity.

The Go source is embedded shallowly: Go strings become `List Char`, the
fixed lookup tables become association lists in the textual order of the
source file, `strings.ReplaceAll` becomes `replaceAll`, the compiled
regular expressions of `New` (alternations of all table keys) become
prefix searches over the same tables, `FindAllStringSubmatch` becomes a
left-to-right scan with non-overlapping matches, and the derivation of
`key0` and `key1` from `key2` in `Encode` becomes character filters.
Go map iteration order is unspecified; the embedding fixes the textual
order of the source and the determinism claim is settled by proving the
output invariant under permutations of every table.
-/

/-- The code point ranges of the Oriya script, as in the range table
`unicode.Oriya` of the Go standard library, which the pattern
`\P{Oriya}` of `regexNonOdia` complements. -/
def oriyaRanges : List (Nat × Nat) :=
  [(0xb01, 0xb03), (0xb05, 0xb0c), (0xb0f, 0xb10), (0xb13, 0xb28),
   (0xb2a, 0xb30), (0xb32, 0xb33), (0xb35, 0xb39), (0xb3c, 0xb44),
   (0xb47, 0xb48), (0xb4b, 0xb4d), (0xb55, 0xb57), (0xb5c, 0xb5d),
   (0xb5f, 0xb63), (0xb66, 0xb77)]

/-- Membership of a character in the Oriya script: `regexNonOdia`
(pattern `\P{Oriya}`) deletes exactly the characters with
`isOriya c = false`. -/
def isOriya (c : Char) : Bool :=
  oriyaRanges.any fun p => decide (p.1 ≤ c.toNat) && decide (c.toNat ≤ p.2)

/-- A lookup table: an association list of key and value, both strings of
the Go source represented as character lists. -/
abbrev Table := List (List Char × List Char)

/-- The `vowels` map of the source, in textual order. -/
def vowels : Table :=
  [(['ଅ'], ['A']), (['ଆ'], ['A']), (['ଇ'], ['I']), (['ଈ'], ['I']),
   (['ଉ'], ['U']), (['ଊ'], ['U']), (['ଋ'], ['R']), (['ୠ'], ['R']),
   (['ଏ'], ['E']), (['ଐ'], ['A', 'I']), (['ଓ'], ['O']), (['ଔ'], ['O', 'U'])]

/-- The `consonants` map of the source, in textual order. -/
def consonants : Table :=
  [(['କ'], ['K']), (['ଖ'], ['K', 'H']), (['ଗ'], ['G']), (['ଘ'], ['G', 'H']),
   (['ଙ'], ['W', 'N']), (['ଚ'], ['C', 'H']), (['ଛ'], ['C', 'H', 'H']),
   (['ଜ'], ['J']), (['ଝ'], ['J', 'H']), (['ଞ'], ['N', 'Y']),
   (['ଟ'], ['T']), (['ଠ'], ['T', 'H']), (['ଡ'], ['D']), (['ଢ'], ['D', 'H']),
   (['ଣ'], ['N']), (['ତ'], ['T']), (['ଥ'], ['T', 'H']), (['ଦ'], ['D']),
   (['ଧ'], ['D', 'H']), (['ନ'], ['N']), (['ପ'], ['P']), (['ଫ'], ['P', 'H']),
   (['ବ'], ['B']), (['ଭ'], ['V']), (['ମ'], ['M']), (['ଯ'], ['J']),
   (['ର'], ['R']), (['ଲ'], ['L']), (['ଳ'], ['L', 'H']), (['ଵ'], ['B']),
   (['ଶ'], ['S', 'H']), (['ଷ'], ['S', 'H']), (['ସ'], ['S']), (['ହ'], ['H']),
   (['ୟ'], ['Y']), (['ୱ'], ['U', 'A'])]

/-- The `compounds` map of the source, in textual order.  Every key is a
three character cluster: consonant, virama, consonant. -/
def compounds : Table :=
  [(['କ', '୍', 'ତ'], ['K', '2']), (['ଙ', '୍', 'କ'], ['K', '3']),
   (['ଙ', '୍', 'ଗ'], ['N', 'G']), (['ଙ', '୍', 'ଘ'], ['N', 'G', '2']),
   (['ଞ', '୍', 'ଜ'], ['N', 'J'])]

/-- The `modifiers` map of the source, in textual order. -/
def modifiers : Table :=
  [(['ା'], ['1']), (['଼'], ['2']), (['୍'], ['2']), (['ୖ'], ['3']),
   (['େ'], ['3']), (['ୈ'], ['3']), (['ୗ'], ['3']), (['ୋ'], ['4']),
   (['ୌ'], ['4']), (['ି'], ['5']), (['ୀ'], ['5']), (['ୁ'], ['6']),
   (['ୂ'], ['6']), (['ୃ'], ['6']), (['ଃ'], ['7']), (['ଁ'], ['7']),
   (['ଂ'], ['7']), (['ୄ'], ['8']), (['ଽ'], ['8'])]

/-- Structural worker for `replaceAll`: a positive first argument skips
that many characters of already consumed match before resuming the scan. -/
def raGo (k v : List Char) : Nat → List Char → List Char
  | _ + 1, [] => []
  | n + 1, _ :: t => raGo k v n t
  | 0, [] => []
  | 0, c :: t =>
    if k.isPrefixOf (c :: t) then v ++ raGo k v (k.length - 1) t
    else c :: raGo k v 0 t

/-- Embedding of `strings.ReplaceAll`: replace every non-overlapping
occurrence of `k`, scanning from the left, by `v`.  The source never
calls it with an empty `k`. -/
def replaceAll (k v s : List Char) : List Char :=
  raGo k v 0 s

/-- Find the first table entry whose key is a prefix of `s`.  This
embeds matching the alternation of all keys of one table at one
position of the subject; the tables make at most one key match. -/
def findPrefixEntry (tbl : Table) (s : List Char) :
    Option (List Char × List Char) :=
  tbl.find? fun p => p.1.isPrefixOf s

/-- Association list lookup by key, as the Go map read `glyphs[m]`. -/
def lookupT (tbl : Table) (k : List Char) : Option (List Char) :=
  (tbl.find? fun p => decide (p.1 = k)).map Prod.snd

/-- Structural worker for `scanMatches`, with a skip counter as in
`raGo`. -/
def scanGo (tbl pm : Table) : Nat → List Char → List (List Char × List Char × List Char)
  | _ + 1, [] => []
  | n + 1, _ :: t => scanGo tbl pm n t
  | 0, [] => []
  | 0, c :: t =>
    match findPrefixEntry tbl (c :: t) with
    | some g =>
      match findPrefixEntry pm ((c :: t).drop g.1.length) with
      | some m => (g.1 ++ m.1, g.1, m.1) ::
          scanGo tbl pm (g.1.length + m.1.length - 1) t
      | none => scanGo tbl pm 0 t
    | none => scanGo tbl pm 0 t

/-- Embedding of `r.FindAllStringSubmatch(input, -1)` for the regular
expressions built by `New`, of shape `((glyphs)(mods))`: successive
non-overlapping leftmost matches, each reported as the triple (full
match, glyph group, modifier group). -/
def scanMatches (tbl pm : Table) (s : List Char) :
    List (List Char × List Char × List Char) :=
  scanGo tbl pm 0 s

/-- One submatch step of `replaceModifiedGlyphs`: when the submatch text
is a key of the glyph table, replace all its occurrences by its code. -/
def applySubmatch (tbl : Table) (acc : List Char) (m : List Char) : List Char :=
  match lookupT tbl m with
  | some v => replaceAll m v acc
  | none => acc

/-- Embedding of `replaceModifiedGlyphs`: for every reported match, try
all four submatches (full, outer group which equals the full match,
glyph, modifier) against the glyph table and replace the hits. -/
def replaceModifiedGlyphs (tbl pm : Table) (s : List Char) : List Char :=
  (scanMatches tbl pm s).foldl
    (fun acc tr =>
      applySubmatch tbl
        (applySubmatch tbl
          (applySubmatch tbl (applySubmatch tbl acc tr.1) tr.1) tr.2.1)
        tr.2.2)
    s

/-- The delimiter wrapping of the bare replacement passes in `process`. -/
def wrapB (v : List Char) : List Char := '\x7b' :: v ++ ['\x7d']

/-- One replacement loop of `process` over a table, applying `F` to each
code before substituting it (the bare passes wrap the code in the
delimiter pair, the modifier pass does not). -/
def foldRA (F : List Char → List Char) (tbl : Table) (s : List Char) : List Char :=
  tbl.foldl (fun acc p => replaceAll p.1 (F p.2) acc) s

/-- One bare replacement loop of `process` over a glyph table, wrapping
each code in the delimiter pair. -/
def bareFold (tbl : Table) (s : List Char) : List Char :=
  foldRA wrapB tbl s

/-- The standalone modifier replacement loop of `process`, unwrapped. -/
def modFold (pm : Table) (s : List Char) : List Char :=
  foldRA id pm s

/-- The character class kept by the final cleanup: `regexAlphaNum`
(pattern `[^\dA-Z]`) deletes everything else. -/
def isAlphaNum (c : Char) : Bool :=
  (decide ('0' ≤ c) && decide (c ≤ '9')) || (decide ('A' ≤ c) && decide (c ≤ 'Z'))

/-- The `process` pipeline, parameterized by the iteration order of the
four tables, which Go leaves unspecified.  The steps follow the source:
script filter, modified compounds, bare compounds, modified consonants,
modified vowels, bare consonants, bare vowels, standalone modifiers,
final cleanup.  `strings.Trim(input, "")` of the source is the
identity. -/
def processWith (pc pk pv pm : Table) (input : List Char) : List Char :=
  let s0 := input.filter isOriya
  let s1 := replaceModifiedGlyphs pc pm s0
  let s2 := bareFold pc s1
  let s3 := replaceModifiedGlyphs pk pm s2
  let s4 := replaceModifiedGlyphs pv pm s3
  let s5 := bareFold pk s4
  let s6 := bareFold pv s5
  let s7 := modFold pm s6
  s7.filter isAlphaNum

/-- The `process` method of the source, at the textual table order. -/
def process (input : List Char) : List Char :=
  processWith compounds consonants vowels modifiers input

/-- The digit class removed by `regexKey1` (pattern `[7-8]`). -/
def narrowDigit (c : Char) : Bool := decide ('7' ≤ c) && decide (c ≤ '8')

/-- The digit class removed by `regexKey0` (pattern `[1-8]`). -/
def broadDigit (c : Char) : Bool := decide ('1' ≤ c) && decide (c ≤ '8')

/-- Embedding of `Encode`: `key2 = process input`, `key1` strips the
narrow digit class from `key2`, `key0` strips the broad digit class
from `key2`; the triple is returned as (key0, key1, key2). -/
def Encode (input : String) : String × String × String :=
  (⟨(process input.data).filter fun c => !broadDigit c⟩,
   ⟨(process input.data).filter fun c => !narrowDigit c⟩,
   ⟨process input.data⟩)

/-- The only pair of distinct compound keys that can overlap inside a
string shares the single character KA, forming this five character
pattern; its absence is the invariant under which the bare compound
replacements commute. -/
def overlapPat : List Char := ['ଙ', '୍', 'କ', '୍', 'ତ']

/-- `Encode` over explicitly given table iteration orders, standing for
the unspecified Go map iteration order used by `New` for the regular
expression alternations and by `process` for the replacement loops. -/
def EncodeWith (pc pk pv pm : Table) (input : String) : String × String × String :=
  (⟨(processWith pc pk pv pm input.data).filter fun c => !broadDigit c⟩,
   ⟨(processWith pc pk pv pm input.data).filter fun c => !narrowDigit c⟩,
   ⟨processWith pc pk pv pm input.data⟩)

/-- The letter class of the output alphabet, used to state that the key
reductions never delete a letter. -/
def isLetterAZ (c : Char) : Bool := decide ('A' ≤ c) && decide (c ≤ 'Z')

/-- A way of interleaving characters from outside the Oriya script into a
word: `InsertNonOriya w u` holds when `u` is `w` with non-Oriya
characters inserted at arbitrary positions. -/
inductive InsertNonOriya : List Char → List Char → Prop
  | nil : InsertNonOriya [] []
  | keep (c : Char) {w u : List Char} :
      InsertNonOriya w u → InsertNonOriya (c :: w) (c :: u)
  | ins (c : Char) {w u : List Char} :
      isOriya c = false → InsertNonOriya w u → InsertNonOriya w (c :: u)

/-- The code a compound cluster would get if its constituent consonants
and virama were matched individually, each character looked up in the
consonant table and then in the modifier table. -/
def fragmentCode (k : List Char) : List Char :=
  k.flatMap fun c =>
    match lookupT consonants [c] with
    | some v => v
    | none =>
      match lookupT modifiers [c] with
      | some d => d
      | none => [c]

/-- At most one key of the table is a prefix of any given subject; all
four tables have this property because their keys have a fixed length
and are distinct. -/
def UniquePre (tbl : Table) : Prop :=
  ∀ p ∈ tbl, ∀ q ∈ tbl, ∀ s : List Char, p.1 <+: s → q.1 <+: s → p = q

/-! ### Unfolding lemmas for the structural workers -/

lemma raGo_skip (k v : List Char) : ∀ (n : Nat) (t : List Char),
    raGo k v n t = raGo k v 0 (t.drop n) := by
  intro n
  induction n with
  | zero => intro t; simp
  | succ n ih =>
    intro t
    cases t with
    | nil => simp [raGo]
    | cons c t => simpa [raGo] using ih t

lemma replaceAll_nil (k v : List Char) : replaceAll k v [] = [] := rfl

lemma replaceAll_cons (h : Char) (k' v : List Char) (c : Char) (t : List Char) :
    replaceAll (h :: k') v (c :: t) =
      if (h :: k').isPrefixOf (c :: t) then
        v ++ replaceAll (h :: k') v (t.drop k'.length)
      else c :: replaceAll (h :: k') v t := by
  show raGo (h :: k') v 0 (c :: t) = _
  rw [raGo]
  rcases hp : (h :: k').isPrefixOf (c :: t) with _ | _
  · simp [hp, replaceAll]
  · simp [hp, raGo_skip, replaceAll]

lemma scanGo_skip (tbl pm : Table) : ∀ (n : Nat) (t : List Char),
    scanGo tbl pm n t = scanGo tbl pm 0 (t.drop n) := by
  intro n
  induction n with
  | zero => intro t; simp
  | succ n ih =>
    intro t
    cases t with
    | nil => simp [scanGo]
    | cons c t => simpa [scanGo] using ih t

lemma scanMatches_nil (tbl pm : Table) : scanMatches tbl pm [] = [] := rfl

lemma scanMatches_cons_none {tbl : Table} (pm : Table) {c : Char} {t : List Char}
    (h : findPrefixEntry tbl (c :: t) = none) :
    scanMatches tbl pm (c :: t) = scanMatches tbl pm t := by
  show scanGo tbl pm 0 (c :: t) = _
  rw [scanGo, h]
  rfl

lemma scanMatches_cons_nomod {tbl pm : Table} {c : Char} {t : List Char}
    {g : List Char × List Char}
    (hg : findPrefixEntry tbl (c :: t) = some g)
    (hm : findPrefixEntry pm ((c :: t).drop g.1.length) = none) :
    scanMatches tbl pm (c :: t) = scanMatches tbl pm t := by
  show scanGo tbl pm 0 (c :: t) = _
  rw [scanGo, hg]
  simp only [hm]
  rfl

lemma scanMatches_cons_match {tbl pm : Table} {c : Char} {t : List Char}
    {g m : List Char × List Char}
    (hg : findPrefixEntry tbl (c :: t) = some g)
    (hm : findPrefixEntry pm ((c :: t).drop g.1.length) = some m) :
    scanMatches tbl pm (c :: t) =
      (g.1 ++ m.1, g.1, m.1) ::
        scanMatches tbl pm (t.drop (g.1.length + m.1.length - 1)) := by
  show scanGo tbl pm 0 (c :: t) = _
  rw [scanGo, hg]
  simp only [hm]
  rw [scanGo_skip tbl pm (g.1.length + m.1.length - 1) t]
  rfl

/-! ### The empty and all-foreign inputs -/

lemma bareFold_nil (tbl : Table) : bareFold tbl [] = [] := by
  induction tbl with
  | nil => rfl
  | cons p tbl ih => simpa [bareFold, replaceAll_nil] using ih

lemma modFold_nil (pm : Table) : modFold pm [] = [] := by
  induction pm with
  | nil => rfl
  | cons p pm ih => simpa [modFold, replaceAll_nil] using ih

lemma replaceModifiedGlyphs_nil (tbl pm : Table) :
    replaceModifiedGlyphs tbl pm [] = [] := rfl

lemma processWith_nil (pc pk pv pm : Table) (input : List Char)
    (h : input.filter isOriya = []) : processWith pc pk pv pm input = [] := by
  simp [processWith, h, replaceModifiedGlyphs_nil, bareFold_nil, modFold_nil]

/-! ### Characterizing prefix search and lookup -/

lemma lookupT_eq_none_iff {tbl : Table} {k : List Char} :
    lookupT tbl k = none ↔ ∀ e ∈ tbl, e.1 ≠ k := by
  simp [lookupT, List.find?_eq_none]

lemma lookupT_eq_some_of_mem {tbl : Table} {k v : List Char}
    (hnd : (tbl.map Prod.fst).Nodup) (hm : (k, v) ∈ tbl) :
    lookupT tbl k = some v := by
  induction tbl with
  | nil => cases hm
  | cons e tbl ih =>
    rcases List.mem_cons.mp hm with he | he
    · simp [lookupT, List.find?_cons, ← he]
    · have hne : e.1 ≠ k := by
        intro hk
        have : k ∈ tbl.map Prod.fst := List.mem_map_of_mem Prod.fst he
        rw [List.map_cons, List.nodup_cons, hk] at hnd
        exact hnd.1 this
      have ih := ih (by rw [List.map_cons, List.nodup_cons] at hnd; exact hnd.2) he
      simpa [lookupT, List.find?_cons, hne] using ih

lemma uniquePre_of_len_nodup {tbl : Table} {n : Nat}
    (hlen : ∀ e ∈ tbl, e.1.length = n) (hnd : (tbl.map Prod.fst).Nodup) :
    UniquePre tbl := by
  intro p hp q hq s hps hqs
  have hkey : p.1 = q.1 := by
    rcases List.prefix_or_prefix_of_prefix hps hqs with h | h
    · exact h.eq_of_length ((hlen p hp).trans (hlen q hq).symm)
    · exact (h.eq_of_length ((hlen q hq).trans (hlen p hp).symm)).symm
  exact List.inj_on_of_nodup_map hnd hp hq hkey

lemma findPrefixEntry_eq_none_iff {tbl : Table} {s : List Char} :
    findPrefixEntry tbl s = none ↔ ∀ e ∈ tbl, ¬ e.1 <+: s := by
  simp [findPrefixEntry, List.find?_eq_none, List.isPrefixOf_iff_prefix]

lemma findPrefixEntry_eq_some_of_mem {tbl : Table} {e : List Char × List Char}
    {s : List Char} (hu : UniquePre tbl) (hm : e ∈ tbl) (hp : e.1 <+: s) :
    findPrefixEntry tbl s = some e := by
  induction tbl with
  | nil => cases hm
  | cons f tbl ih =>
    rcases List.mem_cons.mp hm with he | he
    · simp [findPrefixEntry, List.find?_cons, ← he,
        List.isPrefixOf_iff_prefix.mpr hp]
    · by_cases hf : f.1 <+: s
      · have hfe : f = e :=
          hu f (List.mem_cons_self f tbl) e hm s hf hp
        simp [findPrefixEntry, List.find?_cons, hfe,
          List.isPrefixOf_iff_prefix.mpr hp]
      · have ih := ih (fun p hp2 q hq2 => hu p (List.mem_cons_of_mem f hp2) q
          (List.mem_cons_of_mem f hq2)) he
        have hfb : f.1.isPrefixOf s = false := by
          rw [← Bool.not_eq_true, List.isPrefixOf_iff_prefix]
          exact hf
        simpa [findPrefixEntry, List.find?_cons, hfb] using ih

/-! ### Table facts -/

lemma consonants_keyLen : ∀ e ∈ consonants, e.1.length = 1 := by decide
lemma vowels_keyLen : ∀ e ∈ vowels, e.1.length = 1 := by decide
lemma modifiers_keyLen : ∀ e ∈ modifiers, e.1.length = 1 := by decide
lemma compounds_keyLen : ∀ e ∈ compounds, e.1.length = 3 := by decide

lemma consonants_keysNodup : (consonants.map Prod.fst).Nodup := by decide
lemma vowels_keysNodup : (vowels.map Prod.fst).Nodup := by decide
lemma modifiers_keysNodup : (modifiers.map Prod.fst).Nodup := by decide
lemma compounds_keysNodup : (compounds.map Prod.fst).Nodup := by decide

lemma uniquePre_consonants : UniquePre consonants :=
  uniquePre_of_len_nodup consonants_keyLen consonants_keysNodup

lemma uniquePre_vowels : UniquePre vowels :=
  uniquePre_of_len_nodup vowels_keyLen vowels_keysNodup

lemma uniquePre_modifiers : UniquePre modifiers :=
  uniquePre_of_len_nodup modifiers_keyLen modifiers_keysNodup

lemma uniquePre_compounds : UniquePre compounds :=
  uniquePre_of_len_nodup compounds_keyLen compounds_keysNodup

lemma consonants_keys_oriya : ∀ e ∈ consonants, ∀ c ∈ e.1, isOriya c = true := by
  decide

lemma vowels_keys_oriya : ∀ e ∈ vowels, ∀ c ∈ e.1, isOriya c = true := by decide

lemma modifiers_keys_oriya : ∀ e ∈ modifiers, ∀ c ∈ e.1, isOriya c = true := by
  decide

lemma compounds_keys_oriya : ∀ e ∈ compounds, ∀ c ∈ e.1, isOriya c = true := by
  decide

lemma consonants_values_alphaNum :
    ∀ e ∈ consonants, ∀ c ∈ e.2, isAlphaNum c = true := by decide

lemma vowels_values_alphaNum :
    ∀ e ∈ vowels, ∀ c ∈ e.2, isAlphaNum c = true := by decide

lemma modifiers_values_alphaNum :
    ∀ e ∈ modifiers, ∀ c ∈ e.2, isAlphaNum c = true := by decide

lemma compounds_values_alphaNum :
    ∀ e ∈ compounds, ∀ c ∈ e.2, isAlphaNum c = true := by decide

lemma consonants_modifiers_disjoint :
    ∀ e ∈ consonants, ∀ f ∈ modifiers, e.1 ≠ f.1 := by decide

lemma vowels_modifiers_disjoint :
    ∀ e ∈ vowels, ∀ f ∈ modifiers, e.1 ≠ f.1 := by decide

lemma consonants_vowels_disjoint :
    ∀ e ∈ consonants, ∀ f ∈ vowels, e.1 ≠ f.1 := by decide

lemma keys_nonempty_consonants : ∀ e ∈ consonants, e.1 ≠ [] := by decide
lemma keys_nonempty_vowels : ∀ e ∈ vowels, e.1 ≠ [] := by decide
lemma keys_nonempty_modifiers : ∀ e ∈ modifiers, e.1 ≠ [] := by decide
lemma keys_nonempty_compounds : ∀ e ∈ compounds, e.1 ≠ [] := by decide

/-- No character is both an Oriya script character and an ASCII
alphanumeric output character. -/
lemma alphaNum_not_oriya {c : Char} (h : isAlphaNum c = true) :
    isOriya c = false := by
  simp only [isAlphaNum, Bool.or_eq_true, Bool.and_eq_true,
    decide_eq_true_eq] at h
  have hlt : c.toNat < 0xb01 := by
    rcases h with ⟨_, h2⟩ | ⟨_, h2⟩
    · have h3 : c.val.toNat ≤ ('9' : Char).val.toNat := Char.le_def.mp h2
      have h4 : ('9' : Char).val.toNat < 0xb01 := by decide
      simp only [Char.toNat]
      omega
    · have h3 : c.val.toNat ≤ ('Z' : Char).val.toNat := Char.le_def.mp h2
      have h4 : ('Z' : Char).val.toNat < 0xb01 := by decide
      simp only [Char.toNat]
      omega
  rw [Bool.eq_false_iff]
  intro hor
  simp only [isOriya, List.any_eq_true, Bool.and_eq_true,
    decide_eq_true_eq, oriyaRanges] at hor
  obtain ⟨p, hp, hp1, hp2⟩ := hor
  fin_cases hp <;> omega

/-! ### Occurrence lemmas for replaceAll -/

lemma replaceAll_eq_of_no_occ {k v : List Char} :
    ∀ {s : List Char}, (∀ t, t <:+ s → ¬ k <+: t) → replaceAll k v s = s := by
  intro s
  induction s with
  | nil => intro _; rfl
  | cons c t ih =>
    intro h
    cases k with
    | nil => exact absurd List.nil_prefix (h (c :: t) List.suffix_rfl)
    | cons hd k2 =>
      have hnp : (hd :: k2).isPrefixOf (c :: t) = false := by
        rw [← Bool.not_eq_true, List.isPrefixOf_iff_prefix]
        exact h (c :: t) List.suffix_rfl
      rw [replaceAll_cons, hnp]
      simp only [Bool.false_eq_true, if_false]
      rw [ih fun t2 ht2 => h t2 (ht2.trans (List.suffix_cons c t))]

lemma noPre_of_head {hd : Char} {k2 s : List Char} (h : hd ∉ s) :
    ∀ t, t <:+ s → ¬ (hd :: k2) <+: t := by
  intro t ht hp
  exact h (ht.mem (hp.subset (List.mem_cons_self hd k2)))

lemma noPre_of_len {k s : List Char} (h : s.length < k.length) :
    ∀ t, t <:+ s → ¬ k <+: t := by
  intro t ht hp
  have := hp.length_le.trans ht.length_le
  omega

lemma replaceAll_append_self {k v rest : List Char} (hk : k ≠ []) :
    replaceAll k v (k ++ rest) = v ++ replaceAll k v rest := by
  cases k with
  | nil => exact absurd rfl hk
  | cons hd k2 =>
    have hpre : (hd :: k2).isPrefixOf (hd :: (k2 ++ rest)) = true := by
      rw [List.isPrefixOf_iff_prefix]
      exact ⟨rest, by simp⟩
    rw [List.cons_append, replaceAll_cons, hpre]
    simp only [if_true]
    rw [List.drop_left]

lemma replaceAll_cons_of_ne {hd : Char} {k2 v : List Char} {c : Char}
    {t : List Char} (hne : hd ≠ c) :
    replaceAll (hd :: k2) v (c :: t) = c :: replaceAll (hd :: k2) v t := by
  have hnp : (hd :: k2).isPrefixOf (c :: t) = false := by
    rw [← Bool.not_eq_true, List.isPrefixOf_iff_prefix]
    intro hp
    rcases hp with ⟨r, hr⟩
    simp only [List.cons_append, List.cons.injEq] at hr
    exact hne hr.1
  rw [replaceAll_cons, hnp]
  simp

lemma replaceAll_append_skip {hd : Char} {k2 v X : List Char} :
    ∀ u : List Char, hd ∉ u →
      replaceAll (hd :: k2) v (u ++ X) = u ++ replaceAll (hd :: k2) v X := by
  intro u
  induction u with
  | nil => intro _; rfl
  | cons c u ih =>
    intro h
    have hne : hd ≠ c := fun he => h (by rw [he]; exact List.mem_cons_self c u)
    rw [List.cons_append, replaceAll_cons_of_ne hne,
      ih (fun hm => h (List.mem_cons_of_mem c hm)), List.cons_append]

lemma replaceAll_single_occ {k0 vR : List Char} (hk0 : k0 ≠ []) :
    ∀ (u : List Char) {w : List Char},
      (∀ t, t <:+ u ++ k0 ++ w → k0 <+: t → t = k0 ++ w) →
      replaceAll k0 vR (u ++ k0 ++ w) = u ++ vR ++ w := by
  intro u
  induction u with
  | nil =>
    intro w huniq
    simp only [List.nil_append]
    rw [replaceAll_append_self hk0]
    have hw : replaceAll k0 vR w = w := by
      refine replaceAll_eq_of_no_occ fun t ht hp => ?_
      have ht2 : t <:+ k0 ++ w := ht.trans (List.suffix_append k0 w)
      have := huniq t ht2 hp
      subst this
      have h1 := ht.length_le
      simp only [List.length_append] at h1
      have : k0.length = 0 := by omega
      exact hk0 (List.length_eq_zero.mp this)
    rw [hw]
  | cons c u ih =>
    intro w huniq
    cases k0 with
    | nil => exact absurd rfl hk0
    | cons hd k2 =>
      have hne : ¬ (hd :: k2) <+: (c :: u) ++ (hd :: k2) ++ w := by
        intro hp
        have := huniq _ List.suffix_rfl hp
        have hlen := congrArg List.length this
        simp only [List.length_append, List.length_cons] at hlen
        omega
      have hnp : (hd :: k2).isPrefixOf ((c :: u) ++ (hd :: k2) ++ w) = false := by
        rw [← Bool.not_eq_true, List.isPrefixOf_iff_prefix]
        exact hne
      have hstep : (c :: u) ++ (hd :: k2) ++ w = c :: (u ++ (hd :: k2) ++ w) := by
        simp
      rw [hstep] at hnp ⊢
      rw [replaceAll_cons, hnp]
      simp only [Bool.false_eq_true, if_false]
      rw [ih fun t ht hp => huniq t (by rw [hstep]; exact ht.trans (List.suffix_cons c _)) hp]
      simp

/-! ### Occurrence lemmas for the scans and folds -/

lemma scanMatches_eq_nil {tbl : Table} (pm : Table) :
    ∀ {s : List Char}, (∀ e ∈ tbl, ∀ t, t <:+ s → ¬ e.1 <+: t) →
      scanMatches tbl pm s = [] := by
  intro s
  induction s with
  | nil => intro _; rfl
  | cons c t ih =>
    intro h
    have hnone : findPrefixEntry tbl (c :: t) = none :=
      findPrefixEntry_eq_none_iff.mpr fun e he => h e he (c :: t) List.suffix_rfl
    rw [scanMatches_cons_none pm hnone]
    exact ih fun e he t2 ht2 => h e he t2 (ht2.trans (List.suffix_cons c t))

lemma replaceModifiedGlyphs_eq_self {tbl pm : Table} {s : List Char}
    (h : scanMatches tbl pm s = []) : replaceModifiedGlyphs tbl pm s = s := by
  rw [replaceModifiedGlyphs, h]
  rfl

lemma foldRA_eq_self {F : List Char → List Char} :
    ∀ {tbl : Table} {s : List Char},
      (∀ e ∈ tbl, ∀ t, t <:+ s → ¬ e.1 <+: t) → foldRA F tbl s = s := by
  intro tbl
  induction tbl with
  | nil => intro s _; rfl
  | cons e tbl ih =>
    intro s h
    show foldRA F tbl (replaceAll e.1 (F e.2) s) = s
    rw [replaceAll_eq_of_no_occ (h e (List.mem_cons_self e tbl))]
    exact ih fun f hf => h f (List.mem_cons_of_mem e hf)

lemma foldRA_single {F : List Char → List Char} {k0 v0 : List Char} :
    ∀ {tbl : Table} {u w : List Char},
      (k0, v0) ∈ tbl → (tbl.map Prod.fst).Nodup → k0 ≠ [] →
      (∀ t, t <:+ u ++ k0 ++ w → k0 <+: t → t = k0 ++ w) →
      (∀ e ∈ tbl, e.1 ≠ k0 → ∀ t, t <:+ u ++ k0 ++ w → ¬ e.1 <+: t) →
      (∀ e ∈ tbl, ∀ t, t <:+ u ++ F v0 ++ w → ¬ e.1 <+: t) →
      foldRA F tbl (u ++ k0 ++ w) = u ++ F v0 ++ w := by
  intro tbl
  induction tbl with
  | nil => intro u w hm _ _ _ _ _; cases hm
  | cons e tbl ih =>
    intro u w hm hnd hk0 huniq hothers hafter
    rw [List.map_cons, List.nodup_cons] at hnd
    by_cases hke : e.1 = k0
    · have he : e = (k0, v0) := by
        rcases List.mem_cons.mp hm with h | h
        · exact h.symm
        · exact absurd (by rw [hke]; exact List.mem_map_of_mem Prod.fst h) hnd.1
      subst he
      show foldRA F tbl (replaceAll k0 (F v0) (u ++ k0 ++ w)) = u ++ F v0 ++ w
      rw [replaceAll_single_occ hk0 u huniq]
      exact foldRA_eq_self fun f hf => hafter f (List.mem_cons_of_mem _ hf)
    · have hm2 : (k0, v0) ∈ tbl := by
        rcases List.mem_cons.mp hm with h | h
        · exact absurd (congrArg Prod.fst h.symm) hke
        · exact h
      show foldRA F tbl (replaceAll e.1 (F e.2) (u ++ k0 ++ w)) = u ++ F v0 ++ w
      rw [replaceAll_eq_of_no_occ (hothers e (List.mem_cons_self e tbl) hke)]
      exact ih hm2 hnd.2 hk0 huniq
        (fun f hf => hothers f (List.mem_cons_of_mem e hf))
        (fun f hf => hafter f (List.mem_cons_of_mem e hf))

/-! ### ASCII and Oriya character class facts -/

lemma oriya_toNat_lb {c : Char} (h : isOriya c = true) : 0xb01 ≤ c.toNat := by
  simp only [isOriya, List.any_eq_true, Bool.and_eq_true, decide_eq_true_eq,
    oriyaRanges] at h
  obtain ⟨p, hp, hp1, hp2⟩ := h
  fin_cases hp <;> omega

lemma oriya_notMem_ascii {x : Char} (hx : isOriya x = true) :
    ∀ {v : List Char}, (∀ c ∈ v, c.toNat < 0x80) → x ∉ v := by
  intro v hv hm
  have h1 := hv x hm
  have h2 := oriya_toNat_lb hx
  omega

lemma consonants_values_ascii :
    ∀ e ∈ consonants, ∀ c ∈ e.2, c.toNat < 0x80 := by decide

lemma vowels_values_ascii :
    ∀ e ∈ vowels, ∀ c ∈ e.2, c.toNat < 0x80 := by decide

lemma modifiers_values_ascii :
    ∀ e ∈ modifiers, ∀ c ∈ e.2, c.toNat < 0x80 := by decide

lemma compounds_values_ascii :
    ∀ e ∈ compounds, ∀ c ∈ e.2, c.toNat < 0x80 := by decide

lemma wrapB_ascii {v : List Char} (hv : ∀ c ∈ v, c.toNat < 0x80) :
    ∀ c ∈ wrapB v, c.toNat < 0x80 := by
  intro c hc
  simp only [wrapB, List.mem_cons, List.mem_append] at hc
  rcases hc with (rfl | hc) | (rfl | hc)
  · decide
  · exact hv c hc
  · decide
  · simp at hc

/-- The first character of every compound key is not a modifier key. -/
lemma compounds_headI_not_modifier :
    ∀ e ∈ compounds, ∀ f ∈ modifiers, f.1 ≠ [e.1.headI] := by decide

lemma key_singleton_of_len_one {e : List Char × List Char}
    (h : e.1.length = 1) : e.1 = [e.1.headI] := by
  obtain ⟨a, ha⟩ := List.length_eq_one.mp h
  rw [ha]
  rfl

/-! ### Computing the scans on matched shapes -/

lemma findPrefixEntry_some_imp {tbl : Table} {s : List Char}
    {e : List Char × List Char} (h : findPrefixEntry tbl s = some e) :
    e ∈ tbl ∧ e.1 <+: s := by
  unfold findPrefixEntry at h
  refine ⟨List.mem_of_find?_eq_some h, ?_⟩
  have h1 := List.find?_some h
  exact List.isPrefixOf_iff_prefix.mp h1

/-- If every key occurrence in `s` reaches the end of `s`, no
glyph-plus-modifier match exists: the modifier position is empty. -/
lemma scanMatches_eq_nil_tail {tbl pm : Table} (hpm : ∀ e ∈ pm, e.1 ≠ []) :
    ∀ {s : List Char},
      (∀ e ∈ tbl, ∀ t, t <:+ s → e.1 <+: t → t.length ≤ e.1.length) →
      scanMatches tbl pm s = [] := by
  intro s
  induction s with
  | nil => intro _; rfl
  | cons c t ih =>
    intro h
    cases hf : findPrefixEntry tbl (c :: t) with
    | none =>
      rw [scanMatches_cons_none pm hf]
      exact ih fun e he t2 ht2 => h e he t2 (ht2.trans (List.suffix_cons c t))
    | some g =>
      obtain ⟨hgm, hg1⟩ := findPrefixEntry_some_imp hf
      have hlen := h g hgm (c :: t) List.suffix_rfl hg1
      have hdrop : (c :: t).drop g.1.length = [] :=
        List.drop_eq_nil_iff.mpr hlen
      have hm2 : findPrefixEntry pm ((c :: t).drop g.1.length) = none := by
        rw [hdrop]
        exact findPrefixEntry_eq_none_iff.mpr fun e he hp =>
          hpm e he (List.prefix_nil.mp hp)
      rw [scanMatches_cons_nomod hf hm2]
      exact ih fun e he t2 ht2 => h e he t2 (ht2.trans (List.suffix_cons c t))

lemma scanMatches_front {tbl pm : Table} {g vg : List Char} {mc : Char}
    {d w : List Char} (hut : UniquePre tbl) (hup : UniquePre pm)
    (hg : (g, vg) ∈ tbl) (hm : ([mc], d) ∈ pm) (hgne : g ≠ []) :
    scanMatches tbl pm (g ++ mc :: w) =
      (g ++ [mc], g, [mc]) :: scanMatches tbl pm w := by
  cases g with
  | nil => exact absurd rfl hgne
  | cons c gt =>
    have heq : (c :: gt) ++ mc :: w = c :: (gt ++ mc :: w) := by simp
    have hfg : findPrefixEntry tbl (c :: (gt ++ mc :: w)) = some (c :: gt, vg) := by
      rw [← heq]
      exact findPrefixEntry_eq_some_of_mem hut hg ⟨mc :: w, rfl⟩
    have hfm : findPrefixEntry pm
        ((c :: (gt ++ mc :: w)).drop (c :: gt, vg).1.length) = some ([mc], d) := by
      rw [← heq]
      show findPrefixEntry pm (((c :: gt) ++ mc :: w).drop (c :: gt).length) = _
      rw [List.drop_left]
      exact findPrefixEntry_eq_some_of_mem hup hm ⟨w, rfl⟩
    rw [heq, scanMatches_cons_match hfg hfm]
    have h2 : (gt ++ mc :: w).drop
        ((c :: gt, vg).1.length + ([mc], d).1.length - 1) = w := by
      show (gt ++ mc :: w).drop ((c :: gt).length + [mc].length - 1) = w
      have h3 : (c :: gt).length + [mc].length - 1 = gt.length + 1 := by
        simp
      rw [h3, List.drop_append 1]
      rfl
    rw [h2]

lemma replaceModifiedGlyphs_single {tbl pm : Table} {g vg : List Char}
    {mc : Char} {s : List Char}
    (hscan : scanMatches tbl pm s = [(g ++ [mc], g, [mc])])
    (hfull : lookupT tbl (g ++ [mc]) = none)
    (hglyph : lookupT tbl g = some vg)
    (hmod : lookupT tbl [mc] = none) :
    replaceModifiedGlyphs tbl pm s = replaceAll g vg s := by
  unfold replaceModifiedGlyphs
  rw [hscan]
  simp only [List.foldl_cons, List.foldl_nil, applySubmatch, hfull, hglyph, hmod]

/-! ### Computing replaceAll on matched shapes -/

lemma replaceAll_self {k v : List Char} (hk : k ≠ []) :
    replaceAll k v k = v := by
  have h := @replaceAll_append_self k v [] hk
  rw [List.append_nil] at h
  rw [h, replaceAll_nil, List.append_nil]

lemma occ_unique_end {hd : Char} {k2 : List Char} :
    ∀ {u : List Char}, hd ∉ u →
      ∀ t, t <:+ u ++ (hd :: k2) → (hd :: k2) <+: t → t = hd :: k2 := by
  intro u
  induction u with
  | nil =>
    intro _ t ht hp
    have h1 := ht.length_le
    have h2 := hp.length_le
    simp only [List.nil_append] at h1
    exact (hp.eq_of_length (le_antisymm h2 h1)).symm
  | cons a u ih =>
    intro h t ht hp
    rcases List.suffix_cons_iff.mp ht with rfl | ht2
    · obtain ⟨hhd, _⟩ := List.cons_prefix_cons.mp hp
      exact absurd (hhd ▸ List.mem_cons_self a u) h
    · exact ih (fun hm => h (List.mem_cons_of_mem a hm)) t ht2 hp

lemma headI_mem : ∀ {l : List Char}, l ≠ [] → l.headI ∈ l
  | [], h => absurd rfl h
  | c :: t, _ => List.mem_cons_self c t

/-- Identity of a pass over a table none of whose key head characters
occurs in the subject. -/
lemma noOcc_head {tbl : Table} (hne : ∀ e ∈ tbl, e.1 ≠ [])
    {s : List Char} (hnm : ∀ e ∈ tbl, e.1.headI ∉ s) :
    ∀ e ∈ tbl, ∀ t, t <:+ s → ¬ e.1 <+: t := by
  intro e he t ht hp
  have hk := hne e he
  cases hkk : e.1 with
  | nil => exact hk hkk
  | cons x xs =>
    rw [hkk] at hp
    have hx : x = e.1.headI := by rw [hkk]; rfl
    exact noPre_of_head (hx ▸ hnm e he) t ht hp

/-- Identity of a pass over a table whose keys are longer than the
subject. -/
lemma noOcc_len {tbl : Table} {n : Nat} (hlen : ∀ e ∈ tbl, e.1.length = n)
    {s : List Char} (hs : s.length < n) :
    ∀ e ∈ tbl, ∀ t, t <:+ s → ¬ e.1 <+: t := by
  intro e he
  exact noPre_of_len (by rw [hlen e he]; exact hs)

/-- Variant of `foldRA_single` with the matched key at the end of the
subject. -/
lemma foldRA_single_end {F : List Char → List Char} {k0 v0 : List Char}
    {tbl : Table} {u : List Char}
    (hmem : (k0, v0) ∈ tbl) (hnd : (tbl.map Prod.fst).Nodup) (hk0 : k0 ≠ [])
    (huniq : ∀ t, t <:+ u ++ k0 → k0 <+: t → t = k0)
    (hothers : ∀ e ∈ tbl, e.1 ≠ k0 → ∀ t, t <:+ u ++ k0 → ¬ e.1 <+: t)
    (hafter : ∀ e ∈ tbl, ∀ t, t <:+ u ++ F v0 → ¬ e.1 <+: t) :
    foldRA F tbl (u ++ k0) = u ++ F v0 := by
  have h := @foldRA_single F k0 v0 tbl u [] hmem hnd hk0
    (by simpa using huniq) (by simpa using hothers) (by simpa using hafter)
  simpa using h

/-! ### The pipeline on a glyph followed by a modifier -/

lemma process_def (input : List Char) : process input =
    (modFold modifiers
      (bareFold vowels
        (bareFold consonants
          (replaceModifiedGlyphs vowels modifiers
            (replaceModifiedGlyphs consonants modifiers
              (bareFold compounds
                (replaceModifiedGlyphs compounds modifiers
                  (input.filter isOriya)))))))).filter isAlphaNum := rfl

lemma process_consonant_mod {e f : List Char × List Char}
    (he : e ∈ consonants) (hf : f ∈ modifiers) :
    process (e.1 ++ f.1) = e.2 ++ f.2 := by
  obtain ⟨gc, hgk⟩ := List.length_eq_one.mp (consonants_keyLen e he)
  obtain ⟨mc, hmk⟩ := List.length_eq_one.mp (modifiers_keyLen f hf)
  have he2 : ([gc], e.2) ∈ consonants := by rw [← hgk]; simpa using he
  have hf2 : ([mc], f.2) ∈ modifiers := by rw [← hmk]; simpa using hf
  have hgo : isOriya gc = true :=
    consonants_keys_oriya e he gc (by rw [hgk]; exact List.mem_cons_self gc [])
  have hmo : isOriya mc = true :=
    modifiers_keys_oriya f hf mc (by rw [hmk]; exact List.mem_cons_self mc [])
  have hvascii : ∀ c ∈ e.2, c.toNat < 0x80 := consonants_values_ascii e he
  have hdascii : ∀ c ∈ f.2, c.toNat < 0x80 := modifiers_values_ascii f hf
  have hne_gm : gc ≠ mc := by
    intro h
    exact consonants_modifiers_disjoint e he f hf (by rw [hgk, hmk, h])
  have hmc_notin : mc ∉ e.2 := oriya_notMem_ascii hmo hvascii
  rw [hgk, hmk, process_def]
  have h0 : ([gc] ++ [mc] : List Char).filter isOriya = [gc] ++ [mc] := by
    simp [hgo, hmo]
  rw [h0]
  have h1 : replaceModifiedGlyphs compounds modifiers ([gc] ++ [mc]) =
      [gc] ++ [mc] :=
    replaceModifiedGlyphs_eq_self
      (scanMatches_eq_nil modifiers (noOcc_len compounds_keyLen (by simp)))
  rw [h1]
  have h2 : bareFold compounds ([gc] ++ [mc]) = [gc] ++ [mc] :=
    foldRA_eq_self (noOcc_len compounds_keyLen (by simp))
  rw [h2]
  have hscan : scanMatches consonants modifiers ([gc] ++ mc :: []) =
      ([gc] ++ [mc], [gc], [mc]) :: scanMatches consonants modifiers [] :=
    scanMatches_front uniquePre_consonants uniquePre_modifiers he2 hf2 (by simp)
  have hfull : lookupT consonants ([gc] ++ [mc]) = none :=
    lookupT_eq_none_iff.mpr fun p hp h => by
      have := consonants_keyLen p hp
      rw [h] at this
      simp at this
  have hglyph : lookupT consonants [gc] = some e.2 :=
    lookupT_eq_some_of_mem consonants_keysNodup he2
  have hmodn : lookupT consonants [mc] = none :=
    lookupT_eq_none_iff.mpr fun p hp h =>
      consonants_modifiers_disjoint p hp ([mc], f.2) hf2 (by rw [h])
  have h3 : replaceModifiedGlyphs consonants modifiers ([gc] ++ [mc]) =
      replaceAll [gc] e.2 ([gc] ++ [mc]) :=
    replaceModifiedGlyphs_single hscan hfull hglyph hmodn
  rw [h3]
  have hra : replaceAll [gc] e.2 ([gc] ++ [mc]) = e.2 ++ [mc] := by
    rw [replaceAll_append_self (by simp)]
    show e.2 ++ replaceAll [gc] e.2 (mc :: []) = e.2 ++ [mc]
    rw [replaceAll_cons_of_ne hne_gm, replaceAll_nil]
  rw [hra]
  have h4 : replaceModifiedGlyphs vowels modifiers (e.2 ++ [mc]) =
      e.2 ++ [mc] := by
    refine replaceModifiedGlyphs_eq_self (scanMatches_eq_nil modifiers ?_)
    refine noOcc_head keys_nonempty_vowels fun p hp => ?_
    have ho : isOriya p.1.headI = true :=
      vowels_keys_oriya p hp _ (headI_mem (keys_nonempty_vowels p hp))
    simp only [List.mem_append, List.mem_singleton, not_or]
    refine ⟨oriya_notMem_ascii ho hvascii, fun h => ?_⟩
    exact vowels_modifiers_disjoint p hp ([mc], f.2) hf2
      (by rw [key_singleton_of_len_one (vowels_keyLen p hp), h])
  rw [h4]
  have h5 : bareFold consonants (e.2 ++ [mc]) = e.2 ++ [mc] := by
    refine foldRA_eq_self ?_
    refine noOcc_head keys_nonempty_consonants fun p hp => ?_
    have ho : isOriya p.1.headI = true :=
      consonants_keys_oriya p hp _ (headI_mem (keys_nonempty_consonants p hp))
    simp only [List.mem_append, List.mem_singleton, not_or]
    refine ⟨oriya_notMem_ascii ho hvascii, fun h => ?_⟩
    exact consonants_modifiers_disjoint p hp ([mc], f.2) hf2
      (by rw [key_singleton_of_len_one (consonants_keyLen p hp), h])
  rw [h5]
  have h6 : bareFold vowels (e.2 ++ [mc]) = e.2 ++ [mc] := by
    refine foldRA_eq_self ?_
    refine noOcc_head keys_nonempty_vowels fun p hp => ?_
    have ho : isOriya p.1.headI = true :=
      vowels_keys_oriya p hp _ (headI_mem (keys_nonempty_vowels p hp))
    simp only [List.mem_append, List.mem_singleton, not_or]
    refine ⟨oriya_notMem_ascii ho hvascii, fun h => ?_⟩
    exact vowels_modifiers_disjoint p hp ([mc], f.2) hf2
      (by rw [key_singleton_of_len_one (vowels_keyLen p hp), h])
  rw [h6]
  have h7 : modFold modifiers (e.2 ++ [mc]) = e.2 ++ f.2 := by
    have hothers : ∀ p ∈ modifiers, p.1 ≠ [mc] →
        ∀ t, t <:+ e.2 ++ [mc] → ¬ p.1 <+: t := by
      intro p hp hne t ht hpre
      obtain ⟨x, hx⟩ := List.length_eq_one.mp (modifiers_keyLen p hp)
      rw [hx] at hpre
      refine noPre_of_head ?_ t ht hpre
      simp only [List.mem_append, List.mem_singleton, not_or]
      have ho : isOriya x = true :=
        modifiers_keys_oriya p hp x (by rw [hx]; exact List.mem_cons_self x [])
      exact ⟨oriya_notMem_ascii ho hvascii, fun h2 => hne (by rw [hx, h2])⟩
    have hafter : ∀ p ∈ modifiers, ∀ t, t <:+ e.2 ++ f.2 → ¬ p.1 <+: t := by
      intro p hp t ht hpre
      obtain ⟨x, hx⟩ := List.length_eq_one.mp (modifiers_keyLen p hp)
      rw [hx] at hpre
      refine noPre_of_head ?_ t ht hpre
      have ho : isOriya x = true :=
        modifiers_keys_oriya p hp x (by rw [hx]; exact List.mem_cons_self x [])
      simp only [List.mem_append, not_or]
      exact ⟨oriya_notMem_ascii ho hvascii, oriya_notMem_ascii ho hdascii⟩
    exact @foldRA_single_end id [mc] f.2 modifiers e.2 hf2 modifiers_keysNodup
      (by simp) (occ_unique_end hmc_notin) hothers hafter
  rw [h7]
  refine List.filter_eq_self.mpr fun a ha => ?_
  rcases List.mem_append.mp ha with h | h
  · exact consonants_values_alphaNum e he a h
  · exact modifiers_values_alphaNum f hf a h

lemma process_vowel_mod {e f : List Char × List Char}
    (he : e ∈ vowels) (hf : f ∈ modifiers) :
    process (e.1 ++ f.1) = e.2 ++ f.2 := by
  obtain ⟨gc, hgk⟩ := List.length_eq_one.mp (vowels_keyLen e he)
  obtain ⟨mc, hmk⟩ := List.length_eq_one.mp (modifiers_keyLen f hf)
  have he2 : ([gc], e.2) ∈ vowels := by rw [← hgk]; simpa using he
  have hf2 : ([mc], f.2) ∈ modifiers := by rw [← hmk]; simpa using hf
  have hgo : isOriya gc = true :=
    vowels_keys_oriya e he gc (by rw [hgk]; exact List.mem_cons_self gc [])
  have hmo : isOriya mc = true :=
    modifiers_keys_oriya f hf mc (by rw [hmk]; exact List.mem_cons_self mc [])
  have hvascii : ∀ c ∈ e.2, c.toNat < 0x80 := vowels_values_ascii e he
  have hdascii : ∀ c ∈ f.2, c.toNat < 0x80 := modifiers_values_ascii f hf
  have hne_gm : gc ≠ mc := by
    intro h
    exact vowels_modifiers_disjoint e he f hf (by rw [hgk, hmk, h])
  have hmc_notin : mc ∉ e.2 := oriya_notMem_ascii hmo hvascii
  rw [hgk, hmk, process_def]
  have h0 : ([gc] ++ [mc] : List Char).filter isOriya = [gc] ++ [mc] := by
    simp [hgo, hmo]
  rw [h0]
  have h1 : replaceModifiedGlyphs compounds modifiers ([gc] ++ [mc]) =
      [gc] ++ [mc] :=
    replaceModifiedGlyphs_eq_self
      (scanMatches_eq_nil modifiers (noOcc_len compounds_keyLen (by simp)))
  rw [h1]
  have h2 : bareFold compounds ([gc] ++ [mc]) = [gc] ++ [mc] :=
    foldRA_eq_self (noOcc_len compounds_keyLen (by simp))
  rw [h2]
  have h3 : replaceModifiedGlyphs consonants modifiers ([gc] ++ [mc]) =
      [gc] ++ [mc] := by
    refine replaceModifiedGlyphs_eq_self (scanMatches_eq_nil modifiers ?_)
    refine noOcc_head keys_nonempty_consonants fun p hp => ?_
    have hx1 := key_singleton_of_len_one (consonants_keyLen p hp)
    intro hm
    rcases List.mem_append.mp hm with h | h
    · exact consonants_vowels_disjoint p hp e he
        (by rw [hx1, List.mem_singleton.mp h, hgk])
    · exact consonants_modifiers_disjoint p hp f hf
        (by rw [hx1, List.mem_singleton.mp h, hmk])
  rw [h3]
  have hscan : scanMatches vowels modifiers ([gc] ++ mc :: []) =
      ([gc] ++ [mc], [gc], [mc]) :: scanMatches vowels modifiers [] :=
    scanMatches_front uniquePre_vowels uniquePre_modifiers he2 hf2 (by simp)
  have hfull : lookupT vowels ([gc] ++ [mc]) = none :=
    lookupT_eq_none_iff.mpr fun p hp h => by
      have := vowels_keyLen p hp
      rw [h] at this
      simp at this
  have hglyph : lookupT vowels [gc] = some e.2 :=
    lookupT_eq_some_of_mem vowels_keysNodup he2
  have hmodn : lookupT vowels [mc] = none :=
    lookupT_eq_none_iff.mpr fun p hp h =>
      vowels_modifiers_disjoint p hp ([mc], f.2) hf2 (by rw [h])
  have h4 : replaceModifiedGlyphs vowels modifiers ([gc] ++ [mc]) =
      replaceAll [gc] e.2 ([gc] ++ [mc]) :=
    replaceModifiedGlyphs_single hscan hfull hglyph hmodn
  rw [h4]
  have hra : replaceAll [gc] e.2 ([gc] ++ [mc]) = e.2 ++ [mc] := by
    rw [replaceAll_append_self (by simp)]
    show e.2 ++ replaceAll [gc] e.2 (mc :: []) = e.2 ++ [mc]
    rw [replaceAll_cons_of_ne hne_gm, replaceAll_nil]
  rw [hra]
  have h5 : bareFold consonants (e.2 ++ [mc]) = e.2 ++ [mc] := by
    refine foldRA_eq_self ?_
    refine noOcc_head keys_nonempty_consonants fun p hp => ?_
    have ho : isOriya p.1.headI = true :=
      consonants_keys_oriya p hp _ (headI_mem (keys_nonempty_consonants p hp))
    simp only [List.mem_append, List.mem_singleton, not_or]
    refine ⟨oriya_notMem_ascii ho hvascii, fun h => ?_⟩
    exact consonants_modifiers_disjoint p hp ([mc], f.2) hf2
      (by rw [key_singleton_of_len_one (consonants_keyLen p hp), h])
  rw [h5]
  have h6 : bareFold vowels (e.2 ++ [mc]) = e.2 ++ [mc] := by
    refine foldRA_eq_self ?_
    refine noOcc_head keys_nonempty_vowels fun p hp => ?_
    have ho : isOriya p.1.headI = true :=
      vowels_keys_oriya p hp _ (headI_mem (keys_nonempty_vowels p hp))
    simp only [List.mem_append, List.mem_singleton, not_or]
    refine ⟨oriya_notMem_ascii ho hvascii, fun h => ?_⟩
    exact vowels_modifiers_disjoint p hp ([mc], f.2) hf2
      (by rw [key_singleton_of_len_one (vowels_keyLen p hp), h])
  rw [h6]
  have h7 : modFold modifiers (e.2 ++ [mc]) = e.2 ++ f.2 := by
    have hothers : ∀ p ∈ modifiers, p.1 ≠ [mc] →
        ∀ t, t <:+ e.2 ++ [mc] → ¬ p.1 <+: t := by
      intro p hp hne t ht hpre
      obtain ⟨x, hx⟩ := List.length_eq_one.mp (modifiers_keyLen p hp)
      rw [hx] at hpre
      refine noPre_of_head ?_ t ht hpre
      simp only [List.mem_append, List.mem_singleton, not_or]
      have ho : isOriya x = true :=
        modifiers_keys_oriya p hp x (by rw [hx]; exact List.mem_cons_self x [])
      exact ⟨oriya_notMem_ascii ho hvascii, fun h2 => hne (by rw [hx, h2])⟩
    have hafter : ∀ p ∈ modifiers, ∀ t, t <:+ e.2 ++ f.2 → ¬ p.1 <+: t := by
      intro p hp t ht hpre
      obtain ⟨x, hx⟩ := List.length_eq_one.mp (modifiers_keyLen p hp)
      rw [hx] at hpre
      refine noPre_of_head ?_ t ht hpre
      have ho : isOriya x = true :=
        modifiers_keys_oriya p hp x (by rw [hx]; exact List.mem_cons_self x [])
      simp only [List.mem_append, not_or]
      exact ⟨oriya_notMem_ascii ho hvascii, oriya_notMem_ascii ho hdascii⟩
    exact @foldRA_single_end id [mc] f.2 modifiers e.2 hf2 modifiers_keysNodup
      (by simp) (occ_unique_end hmc_notin) hothers hafter
  rw [h7]
  refine List.filter_eq_self.mpr fun a ha => ?_
  rcases List.mem_append.mp ha with h | h
  · exact vowels_values_alphaNum e he a h
  · exact modifiers_values_alphaNum f hf a h

lemma process_compound_mod {e f : List Char × List Char}
    (he : e ∈ compounds) (hf : f ∈ modifiers) :
    process (e.1 ++ f.1) = e.2 ++ f.2 := by
  obtain ⟨mc, hmk⟩ := List.length_eq_one.mp (modifiers_keyLen f hf)
  have he2 : (e.1, e.2) ∈ compounds := by simpa using he
  have hf2 : ([mc], f.2) ∈ modifiers := by rw [← hmk]; simpa using hf
  have hgne : e.1 ≠ [] := keys_nonempty_compounds e he
  have hmo : isOriya mc = true :=
    modifiers_keys_oriya f hf mc (by rw [hmk]; exact List.mem_cons_self mc [])
  have hvascii : ∀ c ∈ e.2, c.toNat < 0x80 := compounds_values_ascii e he
  have hdascii : ∀ c ∈ f.2, c.toNat < 0x80 := modifiers_values_ascii f hf
  have hmc_notin : mc ∉ e.2 := oriya_notMem_ascii hmo hvascii
  have hlen3 : e.1.length = 3 := compounds_keyLen e he
  rw [hmk, process_def]
  have h0 : (e.1 ++ [mc]).filter isOriya = e.1 ++ [mc] := by
    refine List.filter_eq_self.mpr fun a ha => ?_
    rcases List.mem_append.mp ha with h | h
    · exact compounds_keys_oriya e he a h
    · rw [List.mem_singleton.mp h]
      exact hmo
  rw [h0]
  have hscan : scanMatches compounds modifiers (e.1 ++ mc :: []) =
      (e.1 ++ [mc], e.1, [mc]) :: scanMatches compounds modifiers [] :=
    scanMatches_front uniquePre_compounds uniquePre_modifiers he2 hf2 hgne
  have hfull : lookupT compounds (e.1 ++ [mc]) = none :=
    lookupT_eq_none_iff.mpr fun p hp h => by
      have h1 := compounds_keyLen p hp
      rw [h] at h1
      simp only [List.length_append, List.length_singleton, hlen3] at h1
      omega
  have hglyph : lookupT compounds e.1 = some e.2 :=
    lookupT_eq_some_of_mem compounds_keysNodup he2
  have hmodn : lookupT compounds [mc] = none :=
    lookupT_eq_none_iff.mpr fun p hp h => by
      have h1 := compounds_keyLen p hp
      rw [h] at h1
      simp at h1
  have h1 : replaceModifiedGlyphs compounds modifiers (e.1 ++ [mc]) =
      replaceAll e.1 e.2 (e.1 ++ [mc]) :=
    replaceModifiedGlyphs_single hscan hfull hglyph hmodn
  rw [h1]
  have hra : replaceAll e.1 e.2 (e.1 ++ [mc]) = e.2 ++ [mc] := by
    rw [replaceAll_append_self hgne]
    rw [replaceAll_eq_of_no_occ (noPre_of_len (by rw [hlen3]; simp))]
  rw [hra]
  have h2 : bareFold compounds (e.2 ++ [mc]) = e.2 ++ [mc] := by
    refine foldRA_eq_self ?_
    refine noOcc_head keys_nonempty_compounds fun p hp => ?_
    have ho : isOriya p.1.headI = true :=
      compounds_keys_oriya p hp _ (headI_mem (keys_nonempty_compounds p hp))
    simp only [List.mem_append, List.mem_singleton, not_or]
    refine ⟨oriya_notMem_ascii ho hvascii, fun h => ?_⟩
    exact compounds_headI_not_modifier p hp f hf (by rw [hmk, h])
  rw [h2]
  have h3 : replaceModifiedGlyphs consonants modifiers (e.2 ++ [mc]) =
      e.2 ++ [mc] := by
    refine replaceModifiedGlyphs_eq_self (scanMatches_eq_nil modifiers ?_)
    refine noOcc_head keys_nonempty_consonants fun p hp => ?_
    have ho : isOriya p.1.headI = true :=
      consonants_keys_oriya p hp _ (headI_mem (keys_nonempty_consonants p hp))
    simp only [List.mem_append, List.mem_singleton, not_or]
    refine ⟨oriya_notMem_ascii ho hvascii, fun h => ?_⟩
    exact consonants_modifiers_disjoint p hp ([mc], f.2) hf2
      (by rw [key_singleton_of_len_one (consonants_keyLen p hp), h])
  rw [h3]
  have h4 : replaceModifiedGlyphs vowels modifiers (e.2 ++ [mc]) =
      e.2 ++ [mc] := by
    refine replaceModifiedGlyphs_eq_self (scanMatches_eq_nil modifiers ?_)
    refine noOcc_head keys_nonempty_vowels fun p hp => ?_
    have ho : isOriya p.1.headI = true :=
      vowels_keys_oriya p hp _ (headI_mem (keys_nonempty_vowels p hp))
    simp only [List.mem_append, List.mem_singleton, not_or]
    refine ⟨oriya_notMem_ascii ho hvascii, fun h => ?_⟩
    exact vowels_modifiers_disjoint p hp ([mc], f.2) hf2
      (by rw [key_singleton_of_len_one (vowels_keyLen p hp), h])
  rw [h4]
  have h5 : bareFold consonants (e.2 ++ [mc]) = e.2 ++ [mc] := by
    refine foldRA_eq_self ?_
    refine noOcc_head keys_nonempty_consonants fun p hp => ?_
    have ho : isOriya p.1.headI = true :=
      consonants_keys_oriya p hp _ (headI_mem (keys_nonempty_consonants p hp))
    simp only [List.mem_append, List.mem_singleton, not_or]
    refine ⟨oriya_notMem_ascii ho hvascii, fun h => ?_⟩
    exact consonants_modifiers_disjoint p hp ([mc], f.2) hf2
      (by rw [key_singleton_of_len_one (consonants_keyLen p hp), h])
  rw [h5]
  have h6 : bareFold vowels (e.2 ++ [mc]) = e.2 ++ [mc] := by
    refine foldRA_eq_self ?_
    refine noOcc_head keys_nonempty_vowels fun p hp => ?_
    have ho : isOriya p.1.headI = true :=
      vowels_keys_oriya p hp _ (headI_mem (keys_nonempty_vowels p hp))
    simp only [List.mem_append, List.mem_singleton, not_or]
    refine ⟨oriya_notMem_ascii ho hvascii, fun h => ?_⟩
    exact vowels_modifiers_disjoint p hp ([mc], f.2) hf2
      (by rw [key_singleton_of_len_one (vowels_keyLen p hp), h])
  rw [h6]
  have h7 : modFold modifiers (e.2 ++ [mc]) = e.2 ++ f.2 := by
    have hothers : ∀ p ∈ modifiers, p.1 ≠ [mc] →
        ∀ t, t <:+ e.2 ++ [mc] → ¬ p.1 <+: t := by
      intro p hp hne t ht hpre
      obtain ⟨x, hx⟩ := List.length_eq_one.mp (modifiers_keyLen p hp)
      rw [hx] at hpre
      refine noPre_of_head ?_ t ht hpre
      simp only [List.mem_append, List.mem_singleton, not_or]
      have ho : isOriya x = true :=
        modifiers_keys_oriya p hp x (by rw [hx]; exact List.mem_cons_self x [])
      exact ⟨oriya_notMem_ascii ho hvascii, fun h2 => hne (by rw [hx, h2])⟩
    have hafter : ∀ p ∈ modifiers, ∀ t, t <:+ e.2 ++ f.2 → ¬ p.1 <+: t := by
      intro p hp t ht hpre
      obtain ⟨x, hx⟩ := List.length_eq_one.mp (modifiers_keyLen p hp)
      rw [hx] at hpre
      refine noPre_of_head ?_ t ht hpre
      have ho : isOriya x = true :=
        modifiers_keys_oriya p hp x (by rw [hx]; exact List.mem_cons_self x [])
      simp only [List.mem_append, not_or]
      exact ⟨oriya_notMem_ascii ho hvascii, oriya_notMem_ascii ho hdascii⟩
    exact @foldRA_single_end id [mc] f.2 modifiers e.2 hf2 modifiers_keysNodup
      (by simp) (occ_unique_end hmc_notin) hothers hafter
  rw [h7]
  refine List.filter_eq_self.mpr fun a ha => ?_
  rcases List.mem_append.mp ha with h | h
  · exact compounds_values_alphaNum e he a h
  · exact modifiers_values_alphaNum f hf a h

lemma lookupT_none_of_len {tbl : Table} {n : Nat}
    (hlen : ∀ p ∈ tbl, p.1.length = n) {k : List Char} (hk : k.length ≠ n) :
    lookupT tbl k = none :=
  lookupT_eq_none_iff.mpr fun p hp h => hk (by rw [← h]; exact hlen p hp)

/-- Behaviour of one modified-glyph pass on a glyph carrying a modifier
and a second bare occurrence of the same glyph: the glyph alone is
replaced by its unwrapped code at every occurrence, and the modifier
character stays in place. -/
lemma replaceModified_pair {tbl : Table} {e f : List Char × List Char}
    (hut : UniquePre tbl) (hnd : (tbl.map Prod.fst).Nodup)
    (hne : ∀ p ∈ tbl, p.1 ≠ [])
    (hlenEq : ∀ p ∈ tbl, ∀ q ∈ tbl, p.1.length = q.1.length)
    (he : e ∈ tbl) (hf : f ∈ modifiers)
    (hmodn : lookupT tbl f.1 = none)
    (hheadf : f.1 ≠ [e.1.headI]) :
    replaceModifiedGlyphs tbl modifiers (e.1 ++ f.1 ++ e.1) =
      e.2 ++ f.1 ++ e.2 := by
  obtain ⟨mc, hmk⟩ := List.length_eq_one.mp (modifiers_keyLen f hf)
  have he2 : (e.1, e.2) ∈ tbl := by simpa using he
  have hf2 : ([mc], f.2) ∈ modifiers := by rw [← hmk]; simpa using hf
  have hgne : e.1 ≠ [] := hne e he
  have hheadne : e.1.headI ≠ mc := by
    intro h
    exact hheadf (by rw [hmk, h])
  have hs : e.1 ++ f.1 ++ e.1 = e.1 ++ mc :: e.1 := by
    rw [hmk, List.append_assoc, List.singleton_append]
  have hs2 : e.2 ++ f.1 ++ e.2 = e.2 ++ mc :: e.2 := by
    rw [hmk, List.append_assoc, List.singleton_append]
  rw [hs, hs2]
  have hscanTail : scanMatches tbl modifiers e.1 = [] := by
    refine scanMatches_eq_nil_tail keys_nonempty_modifiers fun p hp t ht hpre => ?_
    have h1 := ht.length_le
    have h2 : e.1.length = p.1.length := hlenEq e he p hp
    omega
  have hscan : scanMatches tbl modifiers (e.1 ++ mc :: e.1) =
      [(e.1 ++ [mc], e.1, [mc])] := by
    rw [scanMatches_front hut uniquePre_modifiers he2 hf2 hgne, hscanTail]
  have hfull : lookupT tbl (e.1 ++ [mc]) = none :=
    lookupT_eq_none_iff.mpr fun p hp h => by
      have h1 := hlenEq p hp e he
      rw [h] at h1
      simp only [List.length_append, List.length_singleton] at h1
      omega
  have hglyph : lookupT tbl e.1 = some e.2 := lookupT_eq_some_of_mem hnd he2
  have hmodn2 : lookupT tbl [mc] = none := by rw [← hmk]; exact hmodn
  rw [replaceModifiedGlyphs_single hscan hfull hglyph hmodn2]
  cases hkk : e.1 with
  | nil => exact absurd hkk hgne
  | cons hd k2 =>
    have hhd : hd = e.1.headI := by rw [hkk]; rfl
    rw [← hkk]
    rw [show e.1 ++ mc :: e.1 = e.1 ++ (mc :: e.1) from rfl,
      replaceAll_append_self hgne]
    congr 1
    rw [hkk, replaceAll_cons_of_ne (by rw [hhd]; exact hheadne), ← hkk,
      replaceAll_self hgne]

/-- Claim C1: the three golden fixtures of the test suite.  The code
disagrees with its own tests on the second and third word: the
consonant table maps the letter BHA to the code V and the letter NNA to
the code N, so `Encode` returns the triples shown here, while the test
suite and the README expect BH and NH at those positions.  This theorem
evaluates the code at the three fixture words. -/
theorem C1_golden_fixtures_divergence :
    Encode "ଅଂଶ" = ("ASH", "ASH", "A7SH") ∧
    Encode "ଭ୍ରମର" = ("VRMR", "V2RMR", "V2RMR") ∧
    Encode "ଭ୍ରମଣ" = ("VRMN", "V2RMN", "V2RMN") ∧
    ("VRMR", "V2RMR", "V2RMR") ≠ ("BHRMR", "BH2RMR", "BH2RMR") ∧
    ("VRMN", "V2RMN", "V2RMN") ≠ ("BHRMNH", "BH2RMNH", "BH2RMNH") := by
  refine ⟨by decide, by decide, by decide, by decide, by decide⟩

lemma narrowDigit_imp_broad {c : Char} (h : narrowDigit c = true) :
    broadDigit c = true := by
  simp only [narrowDigit, broadDigit, Bool.and_eq_true, decide_eq_true_eq] at h ⊢
  exact ⟨le_trans (by decide) h.1, h.2⟩

lemma broad_false_imp_narrow_false {c : Char} (h : broadDigit c = false) :
    narrowDigit c = false := by
  cases hn : narrowDigit c with
  | false => rfl
  | true => simp [narrowDigit_imp_broad hn] at h

lemma letter_not_broad {c : Char} (h : isLetterAZ c = true) :
    broadDigit c = false := by
  simp only [isLetterAZ, Bool.and_eq_true, decide_eq_true_eq] at h
  simp only [broadDigit, Bool.and_eq_false_iff, decide_eq_false_iff_not, not_le]
  right
  exact lt_of_lt_of_le (by decide) h.1

/-- Claim C2: `key1` is `key2` with the narrow digit class deleted,
`key0` is `key1` with the broad digit class deleted, the narrow class
is contained in the broad one, the letters of `key2` all survive into
`key1` and `key0`, and consequently `key0` and `key1` are subsequences
of `key2` of non-increasing length. -/
lemma Encode_key2 (w : String) : (Encode w).2.2.data = process w.data := by
  unfold Encode
  generalize process w.data = x
  rfl

lemma Encode_key1 (w : String) :
    (Encode w).2.1.data = (process w.data).filter (fun c => !narrowDigit c) := by
  unfold Encode
  generalize process w.data = x
  rfl

lemma Encode_key0 (w : String) :
    (Encode w).1.data = (process w.data).filter (fun c => !broadDigit c) := by
  unfold Encode
  generalize process w.data = x
  rfl

lemma string_length_data (s : String) : s.length = s.data.length := rfl

theorem C2_monotonic_reduction (w : String) :
    (Encode w).2.1.data = (Encode w).2.2.data.filter (fun c => !narrowDigit c) ∧
    (Encode w).1.data = (Encode w).2.1.data.filter (fun c => !broadDigit c) ∧
    (∀ c : Char, narrowDigit c = true → broadDigit c = true) ∧
    (Encode w).2.1.data.filter isLetterAZ = (Encode w).2.2.data.filter isLetterAZ ∧
    (Encode w).1.data.filter isLetterAZ = (Encode w).2.2.data.filter isLetterAZ ∧
    (Encode w).1.data.Sublist (Encode w).2.1.data ∧
    (Encode w).2.1.data.Sublist (Encode w).2.2.data ∧
    (Encode w).1.length ≤ (Encode w).2.1.length ∧
    (Encode w).2.1.length ≤ (Encode w).2.2.length := by
  rw [Encode_key2, Encode_key1, Encode_key0, string_length_data,
    string_length_data, string_length_data, Encode_key2, Encode_key1,
    Encode_key0]
  have hkey0 : (process w.data).filter (fun c => !broadDigit c) =
      ((process w.data).filter (fun c => !narrowDigit c)).filter
        (fun c => !broadDigit c) := by
    rw [List.filter_filter]
    refine List.filter_congr fun c _ => ?_
    cases hb : broadDigit c with
    | false => simp [broad_false_imp_narrow_false hb]
    | true => simp
  have hletter1 : ((process w.data).filter (fun c => !narrowDigit c)).filter
      isLetterAZ = (process w.data).filter isLetterAZ := by
    rw [List.filter_filter]
    refine List.filter_congr fun c _ => ?_
    cases hl : isLetterAZ c with
    | false => simp
    | true => simp [broad_false_imp_narrow_false (letter_not_broad hl)]
  have hletter0 : ((process w.data).filter (fun c => !broadDigit c)).filter
      isLetterAZ = (process w.data).filter isLetterAZ := by
    rw [List.filter_filter]
    refine List.filter_congr fun c _ => ?_
    cases hl : isLetterAZ c with
    | false => simp
    | true => simp [letter_not_broad hl]
  refine ⟨rfl, hkey0, fun c h => narrowDigit_imp_broad h, hletter1, hletter0,
    ?_, List.filter_sublist _, ?_, (List.filter_sublist _).length_le⟩
  · rw [hkey0]
    exact List.filter_sublist _
  · rw [hkey0]
    exact (List.filter_sublist _).length_le

lemma process_mem_alphaNum {x : List Char} {c : Char} (h : c ∈ process x) :
    isAlphaNum c = true := by
  simp only [process, processWith] at h
  exact (List.mem_filter.mp h).2

/-- Claim C7: every character of each of the three keys is an uppercase
Latin letter or an ASCII digit; in particular the brace delimiters used
during substitution never survive into a key. -/
theorem C7_alphabet_closure (w : String) :
    (∀ c ∈ (Encode w).1.data, isAlphaNum c = true) ∧
    (∀ c ∈ (Encode w).2.1.data, isAlphaNum c = true) ∧
    (∀ c ∈ (Encode w).2.2.data, isAlphaNum c = true) ∧
    '\x7b' ∉ (Encode w).1.data ∧ '\x7b' ∉ (Encode w).2.1.data ∧
    '\x7b' ∉ (Encode w).2.2.data ∧
    '\x7d' ∉ (Encode w).1.data ∧ '\x7d' ∉ (Encode w).2.1.data ∧
    '\x7d' ∉ (Encode w).2.2.data := by
  have h2 : ∀ c ∈ (Encode w).2.2.data, isAlphaNum c = true := by
    intro c hc
    rw [Encode_key2] at hc
    exact process_mem_alphaNum hc
  have h1 : ∀ c ∈ (Encode w).2.1.data, isAlphaNum c = true := by
    intro c hc
    rw [Encode_key1] at hc
    exact process_mem_alphaNum (List.mem_filter.mp hc).1
  have h0 : ∀ c ∈ (Encode w).1.data, isAlphaNum c = true := by
    intro c hc
    rw [Encode_key0] at hc
    exact process_mem_alphaNum (List.mem_filter.mp hc).1
  have hbrace : isAlphaNum '\x7b' = false := by decide
  have hbrace2 : isAlphaNum '\x7d' = false := by decide
  refine ⟨h0, h1, h2, ?_, ?_, ?_, ?_, ?_, ?_⟩
  · exact fun hm => by simpa [hbrace] using h0 _ hm
  · exact fun hm => by simpa [hbrace] using h1 _ hm
  · exact fun hm => by simpa [hbrace] using h2 _ hm
  · exact fun hm => by simpa [hbrace2] using h0 _ hm
  · exact fun hm => by simpa [hbrace2] using h1 _ hm
  · exact fun hm => by simpa [hbrace2] using h2 _ hm

/-- Claim C8: `Encode` is a total function (it is a Lean function on all
of `String`), the empty string encodes to three empty strings, and so
does every input none of whose characters is in the Oriya script (the
script filter leaves nothing for the tables to recognize). -/
theorem C8_totality_empty :
    Encode "" = ("", "", "") ∧
    ∀ w : String, (∀ c ∈ w.data, isOriya c = false) → Encode w = ("", "", "") := by
  constructor
  · decide
  · intro w h
    have hf : w.data.filter isOriya = [] := by
      rw [List.filter_eq_nil_iff]
      intro a ha
      simp [h a ha]
    have hp : process w.data = [] := processWith_nil _ _ _ _ _ hf
    unfold Encode
    rw [hp]
    rfl

/-- Witness for claim C8 at the concrete all-foreign input abc. -/
theorem C8_totality_empty_witness : Encode "abc" = ("", "", "") :=
  C8_totality_empty.2 "abc" (by decide)

lemma insertNonOriya_filter {w u : List Char} (h : InsertNonOriya w u) :
    u.filter isOriya = w.filter isOriya := by
  induction h with
  | nil => rfl
  | keep c _ ih => simp [List.filter_cons, ih]
  | ins c hc _ ih => simp [List.filter_cons, hc, ih]

/-- Claim C6: interleaving characters from outside the Oriya script into
a word does not change the output of `Encode`: the pipeline depends on
its input only through the script filter. -/
theorem C6_script_filter_noninterference (w u : List Char)
    (h : InsertNonOriya w u) : Encode ⟨u⟩ = Encode ⟨w⟩ := by
  have hp : process u = process w := by
    simp only [process, processWith]
    rw [insertNonOriya_filter h]
  simp only [Encode, hp]

/-- Witness for claim C6: inserting two Latin letters around an Odia
consonant does not change the output. -/
theorem C6_script_filter_noninterference_witness :
    Encode (String.mk ['a', 'କ', 'b']) = Encode (String.mk ['କ']) :=
  C6_script_filter_noninterference ['କ'] ['a', 'କ', 'b']
    (.ins 'a' (by decide) (.keep 'କ' (.ins 'b' (by decide) .nil)))

/-- Claim C10: the digit suffixes distinguishing compound codes (2 in
K2 and NG2, 3 in K3) are deleted by the broad reduction but kept by the
narrow one, so key1 keeps them while key0 loses them: the compound with
code NG2 yields key2 = key1 = NG2 and key0 = NG, the compounds with
codes K2 and K3 both collapse to K in key0, exactly the key0 of the
bare consonant KA. -/
theorem C10_compound_digits_collapse :
    broadDigit '2' = true ∧ narrowDigit '2' = false ∧
    broadDigit '3' = true ∧ narrowDigit '3' = false ∧
    Encode "ଙ୍ଘ" = ("NG", "NG2", "NG2") ∧
    Encode "କ୍ତ" = ("K", "K2", "K2") ∧
    Encode "ଙ୍କ" = ("K", "K3", "K3") ∧
    (Encode "କ୍ତ").1 = (Encode "କ").1 ∧
    (Encode "ଙ୍କ").1 = (Encode "କ").1 := by
  refine ⟨by decide, by decide, by decide, by decide, by decide, by decide,
    by decide, by decide, by decide⟩


/-- Claim C4: encoding a compound-table key yields the compound code as
key2, never the concatenation of the codes of its constituent
consonants and virama matched individually. -/
theorem C4_compound_priority :
    ∀ e ∈ compounds, (Encode ⟨e.1⟩).2.2 = ⟨e.2⟩ ∧
      (Encode ⟨e.1⟩).2.2.data ≠ fragmentCode e.1 := by decide

/-- Witness for claim C4 at the compound ŊA+virama+KA, whose code K3
differs from the fragment concatenation WN2K. -/
theorem C4_compound_priority_witness :
    (Encode ⟨['ଙ', '୍', 'କ']⟩).2.2 = ⟨['K', '3']⟩ ∧
    (Encode ⟨['ଙ', '୍', 'କ']⟩).2.2.data ≠ fragmentCode ['ଙ', '୍', 'କ'] :=
  C4_compound_priority (['ଙ', '୍', 'କ'], ['K', '3']) (by decide)

/-- Claim C5, counterexample: the modified-glyph pass does not wrap its
replacement in the delimiter pair and does not restrict itself to the
occurrence followed by the modifier: on KA+AA+KA it rewrites both
occurrences of KA to the bare unwrapped code. -/
theorem C5_wrapped_replacement_counterexample :
    replaceModifiedGlyphs consonants modifiers ['କ', 'ା', 'କ'] =
      ['K', 'ା', 'K'] ∧
    '\x7b' ∉ replaceModifiedGlyphs consonants modifiers ['କ', 'ା', 'କ'] ∧
    replaceModifiedGlyphs consonants modifiers ['କ', 'ା', 'କ'] ≠
      ['\x7b', 'K', '\x7d', 'ା', 'କ'] := by decide

/-- Claim C5 as amended: for a base glyph followed by a modifier mark,
the modified-glyph pass runs before the bare passes in `process` and
replaces the glyph alone by its unwrapped code, at every occurrence of
the glyph, also the bare ones; the modifier character itself stays in
place for the later standalone-modifier pass. -/
theorem C5_modified_pass_amended :
    (∀ e ∈ compounds, ∀ f ∈ modifiers,
      replaceModifiedGlyphs compounds modifiers (e.1 ++ f.1 ++ e.1) =
        e.2 ++ f.1 ++ e.2) ∧
    (∀ e ∈ consonants, ∀ f ∈ modifiers,
      replaceModifiedGlyphs consonants modifiers (e.1 ++ f.1 ++ e.1) =
        e.2 ++ f.1 ++ e.2) ∧
    (∀ e ∈ vowels, ∀ f ∈ modifiers,
      replaceModifiedGlyphs vowels modifiers (e.1 ++ f.1 ++ e.1) =
        e.2 ++ f.1 ++ e.2) := by
  refine ⟨fun e he f hf => ?_, fun e he f hf => ?_, fun e he f hf => ?_⟩
  · refine replaceModified_pair uniquePre_compounds compounds_keysNodup
      keys_nonempty_compounds
      (fun p hp q hq => by rw [compounds_keyLen p hp, compounds_keyLen q hq])
      he hf ?_ (compounds_headI_not_modifier e he f hf)
    obtain ⟨mc, hmk⟩ := List.length_eq_one.mp (modifiers_keyLen f hf)
    rw [hmk]
    exact lookupT_none_of_len compounds_keyLen (by simp)
  · refine replaceModified_pair uniquePre_consonants consonants_keysNodup
      keys_nonempty_consonants
      (fun p hp q hq => by rw [consonants_keyLen p hp, consonants_keyLen q hq])
      he hf ?_ ?_
    · exact lookupT_eq_none_iff.mpr fun p hp h =>
        consonants_modifiers_disjoint p hp f hf h
    · intro h
      exact consonants_modifiers_disjoint e he f hf
        (by rw [key_singleton_of_len_one (consonants_keyLen e he), ← h])
  · refine replaceModified_pair uniquePre_vowels vowels_keysNodup
      keys_nonempty_vowels
      (fun p hp q hq => by rw [vowels_keyLen p hp, vowels_keyLen q hq])
      he hf ?_ ?_
    · exact lookupT_eq_none_iff.mpr fun p hp h =>
        vowels_modifiers_disjoint p hp f hf h
    · intro h
      exact vowels_modifiers_disjoint e he f hf
        (by rw [key_singleton_of_len_one (vowels_keyLen e he), ← h])

/-- Witness for claim C5 as amended, at the consonant KA and the
modifier AA: both occurrences of KA are replaced, the modifier stays. -/
theorem C5_modified_pass_amended_witness :
    replaceModifiedGlyphs consonants modifiers
        ((['କ'], ['K']).1 ++ (['ା'], ['1']).1 ++ (['କ'], ['K']).1) =
      (['କ'], ['K']).2 ++ (['ା'], ['1']).1 ++ (['କ'], ['K']).2 :=
  C5_modified_pass_amended.2.1 (['କ'], ['K']) (by decide) (['ା'], ['1'])
    (by decide)

/-- Claim C9: a base glyph (compound, consonant or vowel) immediately
followed by a modifier mark encodes, in key2, to the attached-form code,
which is exactly the bare-glyph code followed by the standalone-modifier
digit; and no table defines any distinct attached-form mapping for the
pair (the glyph-plus-modifier string is a key of no table), so the
difference clause of the claim holds vacuously. -/
theorem C9_modifier_attachment :
    ∀ g ∈ compounds ++ consonants ++ vowels, ∀ f ∈ modifiers,
      (Encode ⟨g.1 ++ f.1⟩).2.2.data = g.2 ++ f.2 ∧
      lookupT compounds (g.1 ++ f.1) = none ∧
      lookupT consonants (g.1 ++ f.1) = none ∧
      lookupT vowels (g.1 ++ f.1) = none ∧
      lookupT modifiers (g.1 ++ f.1) = none := by
  intro g hg f hf
  have hkey2 : (Encode ⟨g.1 ++ f.1⟩).2.2.data = process (g.1 ++ f.1) :=
    Encode_key2 _
  have hflen : f.1.length = 1 := modifiers_keyLen f hf
  have hglen : g.1.length = 1 ∨ g.1.length = 3 := by
    rcases List.mem_append.mp hg with h | h
    · rcases List.mem_append.mp h with h2 | h2
      · exact Or.inr (compounds_keyLen g h2)
      · exact Or.inl (consonants_keyLen g h2)
    · exact Or.inl (vowels_keyLen g h)
  have hcombLen : (g.1 ++ f.1).length = g.1.length + 1 := by
    simp [hflen]
  refine ⟨?_, ?_, ?_, ?_, ?_⟩
  · rw [hkey2]
    rcases List.mem_append.mp hg with h | h
    · rcases List.mem_append.mp h with h2 | h2
      · exact process_compound_mod h2 hf
      · exact process_consonant_mod h2 hf
    · exact process_vowel_mod h hf
  · refine lookupT_none_of_len compounds_keyLen ?_
    rw [hcombLen]
    omega
  · refine lookupT_none_of_len consonants_keyLen ?_
    rw [hcombLen]
    omega
  · refine lookupT_none_of_len vowels_keyLen ?_
    rw [hcombLen]
    omega
  · refine lookupT_none_of_len modifiers_keyLen ?_
    rw [hcombLen]
    omega

/-- Witness for claim C9 at the consonant KA and the modifier AA. -/
theorem C9_modifier_attachment_witness :
    (Encode ⟨(['କ'], ['K']).1 ++ (['ା'], ['1']).1⟩).2.2.data =
        (['କ'], ['K']).2 ++ (['ା'], ['1']).2 ∧
      lookupT compounds ((['କ'], ['K']).1 ++ (['ା'], ['1']).1) = none ∧
      lookupT consonants ((['କ'], ['K']).1 ++ (['ା'], ['1']).1) = none ∧
      lookupT vowels ((['କ'], ['K']).1 ++ (['ା'], ['1']).1) = none ∧
      lookupT modifiers ((['କ'], ['K']).1 ++ (['ା'], ['1']).1) = none :=
  C9_modifier_attachment (['କ'], ['K']) (by decide) (['ା'], ['1']) (by decide)


/-! ### Permutation invariance: prefix search, lookup, scan -/

lemma uniquePre_of_perm {tbl tbl2 : Table} (hperm : tbl2.Perm tbl)
    (hu : UniquePre tbl) : UniquePre tbl2 :=
  fun p hp q hq s hps hqs =>
    hu p (hperm.subset hp) q (hperm.subset hq) s hps hqs

lemma findPrefixEntry_perm {tbl tbl2 : Table} (hperm : tbl2.Perm tbl)
    (hu : UniquePre tbl) (s : List Char) :
    findPrefixEntry tbl2 s = findPrefixEntry tbl s := by
  cases h : findPrefixEntry tbl s with
  | some e =>
    obtain ⟨hm, hp⟩ := findPrefixEntry_some_imp h
    exact findPrefixEntry_eq_some_of_mem (uniquePre_of_perm hperm hu)
      (hperm.mem_iff.mpr hm) hp
  | none =>
    refine findPrefixEntry_eq_none_iff.mpr fun e he => ?_
    exact findPrefixEntry_eq_none_iff.mp h e (hperm.subset he)

lemma lookupT_some_imp {tbl : Table} {k v : List Char}
    (h : lookupT tbl k = some v) : (k, v) ∈ tbl := by
  unfold lookupT at h
  cases hf : tbl.find? fun p => decide (p.1 = k) with
  | none => rw [hf] at h; cases h
  | some e =>
    rw [hf] at h
    have hm := List.mem_of_find?_eq_some hf
    have hk := List.find?_some hf
    simp only [decide_eq_true_eq] at hk
    simp only [Option.map] at h
    have : e = (k, v) := by
      have h2 : e.2 = v := by injection h
      rw [← hk, ← h2]
    rw [← this]
    exact hm

lemma lookupT_perm {tbl tbl2 : Table} (hperm : tbl2.Perm tbl)
    (hnd : (tbl.map Prod.fst).Nodup) (k : List Char) :
    lookupT tbl2 k = lookupT tbl k := by
  have hnd2 : (tbl2.map Prod.fst).Nodup :=
    ((hperm.map Prod.fst).nodup_iff).mpr hnd
  cases h : lookupT tbl k with
  | some v =>
    exact lookupT_eq_some_of_mem hnd2 (hperm.mem_iff.mpr (lookupT_some_imp h))
  | none =>
    refine lookupT_eq_none_iff.mpr fun e he => ?_
    exact lookupT_eq_none_iff.mp h e (hperm.subset he)

lemma scanMatches_perm {tbl tbl2 pm pm2 : Table} (h1 : tbl2.Perm tbl)
    (hu1 : UniquePre tbl) (h2 : pm2.Perm pm) (hu2 : UniquePre pm) :
    ∀ (n : Nat) (s : List Char), s.length ≤ n →
      scanMatches tbl2 pm2 s = scanMatches tbl pm s := by
  intro n
  induction n with
  | zero =>
    intro s hs
    have : s = [] := List.length_eq_zero.mp (Nat.le_zero.mp hs)
    rw [this]
    rfl
  | succ n ih =>
    intro s hs
    cases s with
    | nil => rfl
    | cons c t =>
      simp only [List.length_cons, Nat.add_le_add_iff_right] at hs
      cases hf : findPrefixEntry tbl (c :: t) with
      | none =>
        have hf2 : findPrefixEntry tbl2 (c :: t) = none := by
          rw [findPrefixEntry_perm h1 hu1, hf]
        rw [scanMatches_cons_none pm2 hf2, scanMatches_cons_none pm hf]
        exact ih t hs
      | some g =>
        have hf2 : findPrefixEntry tbl2 (c :: t) = some g := by
          rw [findPrefixEntry_perm h1 hu1, hf]
        cases hm : findPrefixEntry pm ((c :: t).drop g.1.length) with
        | none =>
          have hm2 : findPrefixEntry pm2 ((c :: t).drop g.1.length) = none := by
            rw [findPrefixEntry_perm h2 hu2, hm]
          rw [scanMatches_cons_nomod hf2 hm2, scanMatches_cons_nomod hf hm]
          exact ih t hs
        | some m =>
          have hm2 : findPrefixEntry pm2 ((c :: t).drop g.1.length) = some m := by
            rw [findPrefixEntry_perm h2 hu2, hm]
          rw [scanMatches_cons_match hf2 hm2, scanMatches_cons_match hf hm]
          have hd : (t.drop (g.1.length + m.1.length - 1)).length ≤ n := by
            have := List.length_drop (g.1.length + m.1.length - 1) t
            omega
          rw [ih _ hd]

lemma replaceModifiedGlyphs_perm {tbl tbl2 pm pm2 : Table}
    (h1 : tbl2.Perm tbl) (hu1 : UniquePre tbl)
    (hnd : (tbl.map Prod.fst).Nodup)
    (h2 : pm2.Perm pm) (hu2 : UniquePre pm) (s : List Char) :
    replaceModifiedGlyphs tbl2 pm2 s = replaceModifiedGlyphs tbl pm s := by
  unfold replaceModifiedGlyphs
  rw [scanMatches_perm h1 hu1 h2 hu2 s.length s le_rfl]
  refine List.foldl_ext _ _ s fun acc tr _ => ?_
  simp only [applySubmatch, lookupT_perm h1 hnd]


/-! ### Permutation invariance of the single character replacement loops -/

lemma replaceAll_single_flatMap (c : Char) (v : List Char) :
    ∀ s, replaceAll [c] v s = s.flatMap (fun a => if a = c then v else [a]) := by
  intro s
  induction s with
  | nil => rfl
  | cons a t ih =>
    by_cases h : a = c
    · subst h
      have hp : ([a] : List Char).isPrefixOf (a :: t) = true := by
        rw [List.isPrefixOf_iff_prefix]
        exact ⟨t, rfl⟩
      rw [replaceAll_cons, hp]
      simp only [if_true, List.length_nil, List.drop_zero]
      rw [ih]
      simp [List.flatMap_cons]
    · rw [replaceAll_cons_of_ne fun he => h he.symm, ih]
      simp [List.flatMap_cons, h]

lemma flatMap_id_of_not_mem {c : Char} {w : List Char} :
    ∀ {v : List Char}, c ∉ v →
      v.flatMap (fun a => if a = c then w else [a]) = v := by
  intro v
  induction v with
  | nil => intro _; rfl
  | cons a t ih =>
    intro h
    rw [List.flatMap_cons,
      if_neg (by intro he; exact h (by rw [← he]; exact List.mem_cons_self a t)),
      ih fun hm => h (List.mem_cons_of_mem a hm)]
    rfl

lemma replaceAll_single_comm {c1 c2 : Char} {v1 v2 : List Char}
    (hne : c1 ≠ c2) (h21 : c2 ∉ v1) (h12 : c1 ∉ v2) (s : List Char) :
    replaceAll [c2] v2 (replaceAll [c1] v1 s) =
      replaceAll [c1] v1 (replaceAll [c2] v2 s) := by
  rw [replaceAll_single_flatMap, replaceAll_single_flatMap,
    replaceAll_single_flatMap, replaceAll_single_flatMap,
    List.flatMap_assoc, List.flatMap_assoc]
  congr 1
  funext a
  by_cases h1 : a = c1
  · subst h1
    rw [if_pos rfl, if_neg hne, flatMap_id_of_not_mem h21]
    simp
  · by_cases h2 : a = c2
    · subst h2
      rw [if_neg h1, if_pos rfl, flatMap_id_of_not_mem h12]
      simp
    · simp [List.flatMap_cons, h1, h2]

lemma foldRA_perm_single {F : List Char → List Char} {tbl tbl2 : Table}
    (hperm : tbl2.Perm tbl)
    (hlen : ∀ e ∈ tbl, e.1.length = 1)
    (hnd : (tbl.map Prod.fst).Nodup)
    (hko : ∀ e ∈ tbl, ∀ c ∈ e.1, isOriya c = true)
    (hFv : ∀ e ∈ tbl, ∀ c ∈ F e.2, c.toNat < 0x80) (s : List Char) :
    foldRA F tbl2 s = foldRA F tbl s := by
  unfold foldRA
  refine List.Perm.foldl_eq' hperm ?_ s
  intro x hx y hy z
  have hx2 := hperm.subset hx
  have hy2 := hperm.subset hy
  obtain ⟨cx, hcx⟩ := List.length_eq_one.mp (hlen x hx2)
  obtain ⟨cy, hcy⟩ := List.length_eq_one.mp (hlen y hy2)
  by_cases hxy : cx = cy
  · have hxe : x = y :=
      List.inj_on_of_nodup_map hnd hx2 hy2 (by rw [hcx, hcy, hxy])
    rw [hxe]
  · have hox : isOriya cx = true :=
      hko x hx2 cx (by rw [hcx]; exact List.mem_cons_self cx [])
    have hoy : isOriya cy = true :=
      hko y hy2 cy (by rw [hcy]; exact List.mem_cons_self cy [])
    show replaceAll y.1 (F y.2) (replaceAll x.1 (F x.2) z) =
      replaceAll x.1 (F x.2) (replaceAll y.1 (F y.2) z)
    rw [hcx, hcy]
    exact replaceAll_single_comm hxy
      (oriya_notMem_ascii hoy (hFv x hx2))
      (oriya_notMem_ascii hox (hFv y hy2)) z


/-! ### Occurrence transfer through replacements -/

lemma infix_of_infix_ascii_append {pat : List Char} (hne : pat ≠ [])
    (hpo : ∀ c ∈ pat, isOriya c = true) :
    ∀ {v R : List Char}, (∀ c ∈ v, c.toNat < 0x80) →
      pat <:+: v ++ R → pat <:+: R := by
  intro v
  induction v with
  | nil =>
    intro R _ h
    simpa using h
  | cons a v ih =>
    intro R hv h
    rw [List.cons_append] at h
    rcases List.infix_cons_iff.mp h with hp | hi
    · exfalso
      cases pat with
      | nil => exact hne rfl
      | cons p0 pt =>
        obtain ⟨h0, _⟩ := List.cons_prefix_cons.mp hp
        have h1 := oriya_toNat_lb (hpo p0 (List.mem_cons_self p0 pt))
        have h2 := hv a (List.mem_cons_self a v)
        rw [h0] at h1
        omega
    · exact ih (fun c hc => hv c (List.mem_cons_of_mem a hc)) hi

lemma prefix_of_prefix_replaceAll {k v : List Char} (hv : v ≠ [])
    (hva : ∀ c ∈ v, c.toNat < 0x80) :
    ∀ (n : Nat) (s : List Char), s.length ≤ n →
      ∀ pat : List Char, pat ≠ [] → (∀ c ∈ pat, isOriya c = true) →
      pat <+: replaceAll k v s → pat <+: s := by
  intro n
  induction n with
  | zero =>
    intro s hs pat hpne _ hp
    have h0 : s = [] := List.length_eq_zero.mp (Nat.le_zero.mp hs)
    rw [h0, replaceAll_nil] at hp
    exact absurd (List.prefix_nil.mp hp) hpne
  | succ n ih =>
    intro s hs pat hpne hpo hp
    cases s with
    | nil =>
      rw [replaceAll_nil] at hp
      exact absurd (List.prefix_nil.mp hp) hpne
    | cons c t =>
      simp only [List.length_cons, Nat.add_le_add_iff_right] at hs
      cases k with
      | nil =>
        cases pat with
        | nil => exact absurd rfl hpne
        | cons p0 pt =>
          have hstep : replaceAll [] v (c :: t) = v ++ replaceAll [] v t := by
            show raGo [] v 0 (c :: t) = _
            rw [raGo]
            have : ([] : List Char).isPrefixOf (c :: t) = true := rfl
            rw [this]
            simp [raGo_skip, replaceAll]
          rw [hstep] at hp
          exfalso
          cases v with
          | nil => exact hv rfl
          | cons v0 vt =>
            obtain ⟨h0, _⟩ := List.cons_prefix_cons.mp hp
            have h1 := oriya_toNat_lb (hpo p0 (List.mem_cons_self p0 pt))
            have h2 := hva v0 (List.mem_cons_self v0 vt)
            rw [h0] at h1
            omega
      | cons kh kt =>
        by_cases hpre : (kh :: kt).isPrefixOf (c :: t) = true
        · rw [replaceAll_cons, if_pos hpre] at hp
          exfalso
          cases pat with
          | nil => exact hpne rfl
          | cons p0 pt =>
            cases v with
            | nil => exact hv rfl
            | cons v0 vt =>
              obtain ⟨h0, _⟩ := List.cons_prefix_cons.mp hp
              have h1 := oriya_toNat_lb (hpo p0 (List.mem_cons_self p0 pt))
              have h2 := hva v0 (List.mem_cons_self v0 vt)
              rw [h0] at h1
              omega
        · rw [replaceAll_cons, if_neg hpre] at hp
          cases pat with
          | nil => exact absurd rfl hpne
          | cons p0 pt =>
            obtain ⟨hp0, hptail⟩ := List.cons_prefix_cons.mp hp
            by_cases hptnil : pt = []
            · subst hptnil
              exact List.cons_prefix_cons.mpr ⟨hp0, List.nil_prefix⟩
            · have hrec := ih t hs pt hptnil
                (fun c2 hc2 => hpo c2 (List.mem_cons_of_mem p0 hc2)) hptail
              exact List.cons_prefix_cons.mpr ⟨hp0, hrec⟩

lemma infix_of_infix_replaceAll {k v : List Char} (hv : v ≠ [])
    (hva : ∀ c ∈ v, c.toNat < 0x80) :
    ∀ (n : Nat) (s : List Char), s.length ≤ n →
      ∀ pat : List Char, pat ≠ [] → (∀ c ∈ pat, isOriya c = true) →
      pat <:+: replaceAll k v s → pat <:+: s := by
  intro n
  induction n with
  | zero =>
    intro s hs pat hpne _ hp
    have h0 : s = [] := List.length_eq_zero.mp (Nat.le_zero.mp hs)
    rw [h0, replaceAll_nil] at hp
    exact absurd (List.infix_nil.mp hp) hpne
  | succ n ih =>
    intro s hs pat hpne hpo hp
    cases s with
    | nil =>
      rw [replaceAll_nil] at hp
      exact absurd (List.infix_nil.mp hp) hpne
    | cons c t =>
      simp only [List.length_cons, Nat.add_le_add_iff_right] at hs
      cases k with
      | nil =>
        have hstep : replaceAll [] v (c :: t) = v ++ replaceAll [] v t := by
          show raGo [] v 0 (c :: t) = _
          rw [raGo]
          have : ([] : List Char).isPrefixOf (c :: t) = true := rfl
          rw [this]
          simp [raGo_skip, replaceAll]
        rw [hstep] at hp
        have h1 := infix_of_infix_ascii_append hpne hpo hva hp
        have h2 := ih t hs pat hpne hpo h1
        exact h2.trans (List.suffix_cons c t).isInfix
      | cons kh kt =>
        by_cases hpre : (kh :: kt).isPrefixOf (c :: t) = true
        · rw [replaceAll_cons, if_pos hpre] at hp
          have h1 := infix_of_infix_ascii_append hpne hpo hva hp
          have hdl : (t.drop kt.length).length ≤ n := by
            have := List.length_drop kt.length t
            omega
          have h2 := ih (t.drop kt.length) hdl pat hpne hpo h1
          exact h2.trans ((List.drop_suffix kt.length t).isInfix.trans
            (List.suffix_cons c t).isInfix)
        · rw [replaceAll_cons, if_neg hpre] at hp
          rcases List.infix_cons_iff.mp hp with hpf | hin
          · cases pat with
            | nil => exact absurd rfl hpne
            | cons p0 pt =>
              obtain ⟨hp0, hptail⟩ := List.cons_prefix_cons.mp hpf
              by_cases hptnil : pt = []
              · subst hptnil
                exact (List.cons_prefix_cons.mpr ⟨hp0, List.nil_prefix⟩).isInfix
              · have hrec := prefix_of_prefix_replaceAll hv hva t.length t
                  le_rfl pt hptnil
                  (fun c2 hc2 => hpo c2 (List.mem_cons_of_mem p0 hc2)) hptail
                exact (List.cons_prefix_cons.mpr ⟨hp0, hrec⟩).isInfix
          · exact (ih t hs pat hpne hpo hin).trans
              (List.suffix_cons c t).isInfix

lemma not_infix_key_replaceAll {k v : List Char} (hk : k ≠ []) (hv : v ≠ [])
    (hva : ∀ c ∈ v, c.toNat < 0x80)
    (hko : ∀ c ∈ k, isOriya c = true) :
    ∀ (n : Nat) (s : List Char), s.length ≤ n →
      ¬ k <:+: replaceAll k v s := by
  intro n
  induction n with
  | zero =>
    intro s hs hp
    have h0 : s = [] := List.length_eq_zero.mp (Nat.le_zero.mp hs)
    rw [h0, replaceAll_nil] at hp
    exact hk (List.infix_nil.mp hp)
  | succ n ih =>
    intro s hs hp
    cases s with
    | nil =>
      rw [replaceAll_nil] at hp
      exact hk (List.infix_nil.mp hp)
    | cons c t =>
      simp only [List.length_cons, Nat.add_le_add_iff_right] at hs
      cases k with
      | nil => exact hk rfl
      | cons kh kt =>
        by_cases hpre : (kh :: kt).isPrefixOf (c :: t) = true
        · rw [replaceAll_cons, if_pos hpre] at hp
          have h1 := infix_of_infix_ascii_append hk hko hva hp
          have hdl : (t.drop kt.length).length ≤ n := by
            have := List.length_drop kt.length t
            omega
          exact ih (t.drop kt.length) hdl h1
        · rw [replaceAll_cons, if_neg hpre] at hp
          rcases List.infix_cons_iff.mp hp with hpf | hin
          · obtain ⟨hp0, hptail⟩ := List.cons_prefix_cons.mp hpf
            by_cases hptnil : kt = []
            · subst hptnil
              refine hpre ?_
              rw [List.isPrefixOf_iff_prefix]
              exact List.cons_prefix_cons.mpr ⟨hp0, List.nil_prefix⟩
            · have hrec := prefix_of_prefix_replaceAll hv hva t.length t
                le_rfl kt hptnil
                (fun c2 hc2 => hko c2 (List.mem_cons_of_mem kh hc2)) hptail
              refine hpre ?_
              rw [List.isPrefixOf_iff_prefix]
              exact List.cons_prefix_cons.mpr ⟨hp0, hrec⟩
          · exact ih t hs hin


/-! ### Commutation of bare compound replacements under the overlap
invariant -/

lemma replaceAll_cons_neg {k v : List Char} {c : Char} {t : List Char}
    (hk : k ≠ []) (h : ¬ k <+: (c :: t)) :
    replaceAll k v (c :: t) = c :: replaceAll k v t := by
  cases k with
  | nil => exact absurd rfl hk
  | cons kh kt =>
    have hb : ¬ (kh :: kt).isPrefixOf (c :: t) = true := fun hb =>
      h (List.isPrefixOf_iff_prefix.mp hb)
    rw [replaceAll_cons, if_neg hb]

/-- Asymmetric core of the commutation argument: the first compound key
is a prefix of the subject, the second is not. -/
lemma comm_core {a1 b1 c1 a2 b2 c2 : Char} {v1 v2 : List Char}
    (hb1 : b1 = '୍') (ha2 : a2 ≠ '୍')
    (hov12 : c1 = a2 →
      [a1, b1, c1] = ['ଙ', '୍', 'କ'] ∧ [a2, b2, c2] = ['କ', '୍', 'ତ'])
    (ho2a : isOriya a2 = true)
    (hv1 : ∀ c ∈ v1, c.toNat < 0x80)
    {r s : List Char} (hs : s = [a1, b1, c1] ++ r)
    (hP : ¬ overlapPat <:+: s)
    (hp2 : ¬ [a2, b2, c2] <+: s)
    (IH : ¬ overlapPat <:+: r →
      replaceAll [a2, b2, c2] v2 (replaceAll [a1, b1, c1] v1 r) =
        replaceAll [a1, b1, c1] v1 (replaceAll [a2, b2, c2] v2 r)) :
    replaceAll [a2, b2, c2] v2 (replaceAll [a1, b1, c1] v1 s) =
      replaceAll [a1, b1, c1] v1 (replaceAll [a2, b2, c2] v2 s) := by
  subst hs
  have hrsuf : r <:+ [a1, b1, c1] ++ r := ⟨[a1, b1, c1], rfl⟩
  have hPr : ¬ overlapPat <:+: r := fun h => hP (h.trans hrsuf.isInfix)
  have hno1 : ¬ [a2, b2, c2] <+: (b1 :: c1 :: r) := by
    intro h
    obtain ⟨h1, _⟩ := List.cons_prefix_cons.mp h
    rw [hb1] at h1
    exact ha2 h1
  have hno2 : ¬ [a2, b2, c2] <+: (c1 :: r) := by
    intro h
    obtain ⟨h1, h3⟩ := List.cons_prefix_cons.mp h
    obtain ⟨hk1, hk2⟩ := hov12 h1.symm
    obtain ⟨r2, hr2⟩ := h3
    injection hk1 with e1 hk1
    injection hk1 with e2 hk1
    injection hk1 with e3 _
    injection hk2 with f1 hk2
    injection hk2 with f2 hk2
    injection hk2 with f3 _
    refine hP ?_
    refine List.IsPrefix.isInfix ⟨r2, ?_⟩
    show overlapPat ++ r2 = [a1, b1, c1] ++ r
    rw [← hr2]
    simp only [overlapPat, e1, e2, e3, f2, f3]
    rfl
  have hL3 : replaceAll [a2, b2, c2] v2 ([a1, b1, c1] ++ r) =
      a1 :: b1 :: c1 :: replaceAll [a2, b2, c2] v2 r := by
    have s1 : ([a1, b1, c1] ++ r : List Char) = a1 :: (b1 :: c1 :: r) := rfl
    rw [s1, replaceAll_cons_neg (by simp) (by rw [← s1]; exact hp2),
      replaceAll_cons_neg (by simp) hno1,
      replaceAll_cons_neg (by simp) hno2]
  have hL4 : replaceAll [a1, b1, c1] v1 ([a1, b1, c1] ++ r) =
      v1 ++ replaceAll [a1, b1, c1] v1 r :=
    replaceAll_append_self (by simp)
  rw [hL4, hL3]
  have hskip : replaceAll [a2, b2, c2] v2 (v1 ++ replaceAll [a1, b1, c1] v1 r) =
      v1 ++ replaceAll [a2, b2, c2] v2 (replaceAll [a1, b1, c1] v1 r) :=
    replaceAll_append_skip v1 (oriya_notMem_ascii ho2a hv1)
  rw [hskip]
  have hL5 : replaceAll [a1, b1, c1] v1
      (a1 :: b1 :: c1 :: replaceAll [a2, b2, c2] v2 r) =
      v1 ++ replaceAll [a1, b1, c1] v1 (replaceAll [a2, b2, c2] v2 r) := by
    have s2 : (a1 :: b1 :: c1 :: replaceAll [a2, b2, c2] v2 r) =
        [a1, b1, c1] ++ replaceAll [a2, b2, c2] v2 r := rfl
    rw [s2, replaceAll_append_self (by simp)]
  rw [hL5, IH hPr]


lemma replaceAll_compound_comm {a1 b1 c1 a2 b2 c2 : Char} {v1 v2 : List Char}
    (hb1 : b1 = '୍') (hb2 : b2 = '୍')
    (ha1 : a1 ≠ '୍') (ha2 : a2 ≠ '୍')
    (hov12 : c1 = a2 →
      [a1, b1, c1] = ['ଙ', '୍', 'କ'] ∧ [a2, b2, c2] = ['କ', '୍', 'ତ'])
    (hov21 : c2 = a1 →
      [a2, b2, c2] = ['ଙ', '୍', 'କ'] ∧ [a1, b1, c1] = ['କ', '୍', 'ତ'])
    (hkeq : [a1, b1, c1] = [a2, b2, c2] → v1 = v2)
    (ho1 : ∀ c ∈ [a1, b1, c1], isOriya c = true)
    (ho2 : ∀ c ∈ [a2, b2, c2], isOriya c = true)
    (hv1 : ∀ c ∈ v1, c.toNat < 0x80) (hv2 : ∀ c ∈ v2, c.toNat < 0x80)
    (hv1ne : v1 ≠ []) (hv2ne : v2 ≠ []) :
    ∀ (n : Nat) (s : List Char), s.length ≤ n → ¬ overlapPat <:+: s →
      replaceAll [a2, b2, c2] v2 (replaceAll [a1, b1, c1] v1 s) =
        replaceAll [a1, b1, c1] v1 (replaceAll [a2, b2, c2] v2 s) := by
  intro n
  induction n with
  | zero =>
    intro s hs _
    have h0 : s = [] := List.length_eq_zero.mp (Nat.le_zero.mp hs)
    subst h0
    rfl
  | succ n ih =>
    intro s hs hP
    cases s with
    | nil => rfl
    | cons c t =>
      simp only [List.length_cons, Nat.add_le_add_iff_right] at hs
      by_cases hp1 : [a1, b1, c1] <+: (c :: t)
      · by_cases hp2 : [a2, b2, c2] <+: (c :: t)
        · have hk12 : ([a1, b1, c1] : List Char) = [a2, b2, c2] := by
            rcases List.prefix_or_prefix_of_prefix hp1 hp2 with h | h
            · exact h.eq_of_length (by simp)
            · exact (h.eq_of_length (by simp)).symm
          rw [hk12, hkeq hk12]
        · obtain ⟨r, hr⟩ := hp1
          have hs2 : c :: t = [a1, b1, c1] ++ r := hr.symm
          refine comm_core hb1 ha2 hov12 (ho2 a2 (by simp)) hv1 hs2 hP hp2 ?_
          intro hPr
          have h1 := congrArg List.length hr
          simp only [List.length_append, List.length_cons] at h1
          exact ih r (by omega) hPr
      · by_cases hp2 : [a2, b2, c2] <+: (c :: t)
        · obtain ⟨r, hr⟩ := hp2
          have hs2 : c :: t = [a2, b2, c2] ++ r := hr.symm
          refine (comm_core hb2 ha1 hov21 (ho1 a1 (by simp)) hv2 hs2 hP hp1 ?_).symm
          intro hPr
          have h1 := congrArg List.length hr
          simp only [List.length_append, List.length_cons] at h1
          exact (ih r (by omega) hPr).symm
        · have hL7a : replaceAll [a1, b1, c1] v1 (c :: t) =
              c :: replaceAll [a1, b1, c1] v1 t :=
            replaceAll_cons_neg (by simp) hp1
          have hL7b : replaceAll [a2, b2, c2] v2 (c :: t) =
              c :: replaceAll [a2, b2, c2] v2 t :=
            replaceAll_cons_neg (by simp) hp2
          rw [hL7a, hL7b]
          have hPt : ¬ overlapPat <:+: t := fun h =>
            hP (h.trans (List.suffix_cons c t).isInfix)
          have hL8 : ¬ [a2, b2, c2] <+: (c :: replaceAll [a1, b1, c1] v1 t) := by
            intro h
            obtain ⟨h1, h3⟩ := List.cons_prefix_cons.mp h
            have h4 := prefix_of_prefix_replaceAll hv1ne hv1 t.length t le_rfl
              [b2, c2] (by simp)
              (fun x hx => ho2 x (List.mem_cons_of_mem a2 hx)) h3
            exact hp2 (List.cons_prefix_cons.mpr ⟨h1, h4⟩)
          have hL9 : ¬ [a1, b1, c1] <+: (c :: replaceAll [a2, b2, c2] v2 t) := by
            intro h
            obtain ⟨h1, h3⟩ := List.cons_prefix_cons.mp h
            have h4 := prefix_of_prefix_replaceAll hv2ne hv2 t.length t le_rfl
              [b1, c1] (by simp)
              (fun x hx => ho1 x (List.mem_cons_of_mem a1 hx)) h3
            exact hp1 (List.cons_prefix_cons.mpr ⟨h1, h4⟩)
          rw [replaceAll_cons_neg (by simp) hL8,
            replaceAll_cons_neg (by simp) hL9, ih t hs hPt]


/-! ### Permutation invariance of the bare compound loop -/

lemma foldl_perm_inv {f : List Char → List Char × List Char → List Char}
    {P : List Char → Prop} :
    ∀ {l1 l2 : List (List Char × List Char)}, l1.Perm l2 →
      (∀ z, P z → ∀ b ∈ l2, P (f z b)) →
      (∀ z, P z → ∀ b1 ∈ l2, ∀ b2 ∈ l2, f (f z b1) b2 = f (f z b2) b1) →
      ∀ z, P z → l1.foldl f z = l2.foldl f z := by
  intro l1 l2 hperm
  induction hperm with
  | nil =>
    intro _ _ z _
    rfl
  | cons x hp ih =>
    intro hpres hcomm z hz
    simp only [List.foldl_cons]
    exact ih (fun z hz b hb => hpres z hz b (List.mem_cons_of_mem x hb))
      (fun z hz b1 hb1 b2 hb2 => hcomm z hz b1 (List.mem_cons_of_mem x hb1)
        b2 (List.mem_cons_of_mem x hb2))
      (f z x) (hpres z hz x (List.mem_cons_self x _))
  | swap x y l =>
    intro hpres hcomm z hz
    simp only [List.foldl_cons]
    rw [hcomm z hz y (by simp) x (by simp)]
  | trans h1 h2 ih1 ih2 =>
    intro hpres hcomm z hz
    refine (ih1 ?_ ?_ z hz).trans (ih2 hpres hcomm z hz)
    · exact fun z hz b hb => hpres z hz b (h2.subset hb)
    · exact fun z hz b1 hb1 b2 hb2 =>
        hcomm z hz b1 (h2.subset hb1) b2 (h2.subset hb2)

lemma compounds_key_struct : ∀ e ∈ compounds,
    e.1 = [e.1.getD 0 'A', e.1.getD 1 'A', e.1.getD 2 'A'] := by decide

lemma compounds_mid : ∀ e ∈ compounds, e.1.getD 1 'A' = '୍' := by decide

lemma compounds_head_ne : ∀ e ∈ compounds, e.1.getD 0 'A' ≠ '୍' := by decide

lemma compounds_overlap : ∀ e ∈ compounds, ∀ p ∈ compounds,
    e.1.getD 2 'A' = p.1.getD 0 'A' →
    e.1 = ['ଙ', '୍', 'କ'] ∧ p.1 = ['କ', '୍', 'ତ'] := by decide

lemma compounds_keyEq_valEq : ∀ e ∈ compounds, ∀ p ∈ compounds,
    e.1 = p.1 → e.2 = p.2 := by decide

lemma compounds_values_nonempty : ∀ e ∈ compounds, e.2 ≠ [] := by decide
lemma consonants_values_nonempty : ∀ e ∈ consonants, e.2 ≠ [] := by decide
lemma vowels_values_nonempty : ∀ e ∈ vowels, e.2 ≠ [] := by decide
lemma modifiers_values_nonempty : ∀ e ∈ modifiers, e.2 ≠ [] := by decide

lemma bareFold_compounds_perm {pc : Table} (hperm : pc.Perm compounds)
    {z : List Char} (hz : ¬ overlapPat <:+: z) :
    foldRA wrapB pc z = foldRA wrapB compounds z := by
  unfold foldRA
  refine @foldl_perm_inv (fun acc p => replaceAll p.1 (wrapB p.2) acc)
    (fun z => ¬ overlapPat <:+: z) pc compounds hperm ?_ ?_ z hz
  · intro z hz b hb hcontra
    have hwa : ∀ c ∈ wrapB b.2, c.toNat < 0x80 :=
      wrapB_ascii (compounds_values_ascii b hb)
    have hwne : wrapB b.2 ≠ [] := by simp [wrapB]
    exact hz (infix_of_infix_replaceAll hwne hwa z.length z le_rfl overlapPat
      (by decide) (by decide) hcontra)
  · intro z hz b1 hb1 b2 hb2
    have hs1 := compounds_key_struct b1 hb1
    have hs2 := compounds_key_struct b2 hb2
    show replaceAll b2.1 (wrapB b2.2) (replaceAll b1.1 (wrapB b1.2) z) =
      replaceAll b1.1 (wrapB b1.2) (replaceAll b2.1 (wrapB b2.2) z)
    rw [hs1, hs2]
    refine replaceAll_compound_comm (compounds_mid b1 hb1)
      (compounds_mid b2 hb2) (compounds_head_ne b1 hb1)
      (compounds_head_ne b2 hb2)
      (fun h => ?_) (fun h => ?_) (fun h => ?_)
      (fun c hc => compounds_keys_oriya b1 hb1 c (by rw [hs1]; exact hc))
      (fun c hc => compounds_keys_oriya b2 hb2 c (by rw [hs2]; exact hc))
      (wrapB_ascii (compounds_values_ascii b1 hb1))
      (wrapB_ascii (compounds_values_ascii b2 hb2))
      (by simp [wrapB]) (by simp [wrapB]) z.length z le_rfl hz
    · have h2 := compounds_overlap b1 hb1 b2 hb2 h
      exact ⟨by rw [← hs1]; exact h2.1, by rw [← hs2]; exact h2.2⟩
    · have h2 := compounds_overlap b2 hb2 b1 hb1 h
      exact ⟨by rw [← hs2]; exact h2.1, by rw [← hs1]; exact h2.2⟩
    · have hk : b1.1 = b2.1 := by rw [hs1, hs2, h]
      rw [compounds_keyEq_valEq b1 hb1 b2 hb2 hk]


/-! ### The modified compound pass eliminates the overlap pattern -/

lemma compounds_third_ne : ∀ e ∈ compounds, e.1.getD 2 'A' ≠ 'ଙ' := by decide

lemma modifiers_head_ne : ∀ e ∈ modifiers, e.1.getD 0 'A' ≠ 'ଙ' := by decide

lemma applySubmatch_infix_back {p : List Char} (hp : p ≠ [])
    (hpo : ∀ c ∈ p, isOriya c = true) {acc : List Char} {m : List Char}
    (h : p <:+: applySubmatch compounds acc m) : p <:+: acc := by
  unfold applySubmatch at h
  split at h
  · rename_i v hl
    have hmem := lookupT_some_imp hl
    exact infix_of_infix_replaceAll (compounds_values_nonempty _ hmem)
      (compounds_values_ascii _ hmem) acc.length acc le_rfl p hp hpo h
  · exact h

lemma applySubmatch_keeps_no_occ {p : List Char} (hp : p ≠ [])
    (hpo : ∀ c ∈ p, isOriya c = true) {acc : List Char} (m : List Char)
    (h : ¬ p <:+: acc) : ¬ p <:+: applySubmatch compounds acc m :=
  fun hc => h (applySubmatch_infix_back hp hpo hc)

lemma applySubmatch_kill (acc : List Char) :
    ¬ ['ଙ', '୍', 'କ'] <:+: applySubmatch compounds acc ['ଙ', '୍', 'କ'] := by
  show ¬ ['ଙ', '୍', 'କ'] <:+: replaceAll ['ଙ', '୍', 'କ'] ['K', '3'] acc
  exact not_infix_key_replaceAll (by decide) (by decide) (by decide) (by decide)
    acc.length acc le_rfl

lemma fold_scan_infix_back {p : List Char} (hp : p ≠ [])
    (hpo : ∀ c ∈ p, isOriya c = true) :
    ∀ (L : List (List Char × List Char × List Char)) (acc : List Char),
      p <:+: L.foldl
        (fun acc tr =>
          applySubmatch compounds
            (applySubmatch compounds
              (applySubmatch compounds (applySubmatch compounds acc tr.1) tr.1)
              tr.2.1) tr.2.2) acc →
      p <:+: acc := by
  intro L
  induction L with
  | nil => intro acc h; exact h
  | cons tr L ih =>
    intro acc h
    rw [List.foldl_cons] at h
    exact applySubmatch_infix_back hp hpo
      (applySubmatch_infix_back hp hpo
        (applySubmatch_infix_back hp hpo
          (applySubmatch_infix_back hp hpo (ih _ h))))

lemma fold_scan_no_overlap :
    ∀ (L : List (List Char × List Char × List Char)) (acc : List Char),
      ((∃ tr ∈ L, tr.2.1 = ['ଙ', '୍', 'କ']) ∨ ¬ ['ଙ', '୍', 'କ'] <:+: acc) →
      ¬ ['ଙ', '୍', 'କ'] <:+: L.foldl
        (fun acc tr =>
          applySubmatch compounds
            (applySubmatch compounds
              (applySubmatch compounds (applySubmatch compounds acc tr.1) tr.1)
              tr.2.1) tr.2.2) acc := by
  intro L
  induction L with
  | nil =>
    intro acc h
    rcases h with ⟨tr, htr, _⟩ | h
    · cases htr
    · exact h
  | cons tr L ih =>
    intro acc h
    rw [List.foldl_cons]
    rcases h with ⟨tr2, htr2, he⟩ | h
    · rcases List.mem_cons.mp htr2 with rfl | hmem
      · refine ih _ (Or.inr ?_)
        refine applySubmatch_keeps_no_occ (by decide) (by decide) _ ?_
        rw [he]
        exact applySubmatch_kill _
      · exact ih _ (Or.inl ⟨tr2, hmem, he⟩)
    · refine ih _ (Or.inr ?_)
      exact applySubmatch_keeps_no_occ (by decide) (by decide) _
        (applySubmatch_keeps_no_occ (by decide) (by decide) _
          (applySubmatch_keeps_no_occ (by decide) (by decide) _
            (applySubmatch_keeps_no_occ (by decide) (by decide) _ h)))

lemma scan_hits_overlap :
    ∀ (n : Nat) (s : List Char), s.length ≤ n →
      ['ଙ', '୍', 'କ', '୍'] <:+: s →
      ∃ tr ∈ scanMatches compounds modifiers s, tr.2.1 = ['ଙ', '୍', 'କ'] := by
  intro n
  induction n with
  | zero =>
    intro s hs hinf
    have he : s = [] := List.length_eq_zero.mp (Nat.le_zero.mp hs)
    subst he
    have := hinf.length_le
    simp at this
  | succ n ih =>
    intro s hs hinf
    cases s with
    | nil =>
      have := hinf.length_le
      simp at this
    | cons c t =>
      simp only [List.length_cons, Nat.add_le_add_iff_right] at hs
      obtain ⟨u, v, huv⟩ := hinf
      cases hf : findPrefixEntry compounds (c :: t) with
      | none =>
        cases u with
        | nil =>
          exfalso
          simp only [List.nil_append] at huv
          exact findPrefixEntry_eq_none_iff.mp hf (['ଙ', '୍', 'କ'], ['K', '3'])
            (by decide) ⟨'୍' :: v, huv⟩
        | cons x u1 =>
          simp only [List.cons_append, List.cons.injEq] at huv
          rw [scanMatches_cons_none modifiers hf]
          exact ih t hs ⟨u1, v, huv.2⟩
      | some g =>
        have hgm := findPrefixEntry_some_imp hf
        have hgl : g.1.length = 3 := compounds_keyLen g hgm.1
        cases hm : findPrefixEntry modifiers ((c :: t).drop g.1.length) with
        | none =>
          cases u with
          | nil =>
            exfalso
            simp only [List.nil_append] at huv
            have hdrop : (c :: t).drop g.1.length = '୍' :: v := by
              rw [hgl, ← huv]
              rfl
            exact findPrefixEntry_eq_none_iff.mp hm (['୍'], ['2'])
              (by decide) (by rw [hdrop]; exact ⟨v, rfl⟩)
          | cons x u1 =>
            simp only [List.cons_append, List.cons.injEq] at huv
            rw [scanMatches_cons_nomod hf hm]
            exact ih t hs ⟨u1, v, huv.2⟩
        | some m =>
          have hmm := findPrefixEntry_some_imp hm
          obtain ⟨a, b, c2, hgs⟩ := List.length_eq_three.mp hgl
          obtain ⟨d, hd⟩ := List.length_eq_one.mp (modifiers_keyLen m hmm.1)
          have hb : b = '୍' := by
            have h1 := compounds_mid g hgm.1
            rw [hgs] at h1
            exact h1
          have hc2 : c2 ≠ 'ଙ' := by
            have h1 := compounds_third_ne g hgm.1
            rw [hgs] at h1
            exact h1
          have hdn : d ≠ 'ଙ' := by
            have h1 := modifiers_head_ne m hmm.1
            rw [hd] at h1
            exact h1
          obtain ⟨t1, ht1⟩ := hgm.2
          have hdt1 : (c :: t).drop g.1.length = t1 := by
            rw [← ht1]
            exact List.drop_left g.1 t1
          obtain ⟨r, hr⟩ := hmm.2
          rw [hdt1] at hr
          have hE : a :: b :: c2 :: d :: r = c :: t := by
            rw [← ht1, ← hr, hgs, hd]
            rfl
          have hlen : g.1.length + m.1.length - 1 = 3 := by
            rw [hgs, hd]
            rfl
          have ht : t = b :: c2 :: d :: r := by
            injection hE with h1 h2
            exact h2.symm
          rw [← hE] at huv
          rw [scanMatches_cons_match hf hm, hlen, ht]
          have hr3 : (b :: c2 :: d :: r).drop 3 = r := rfl
          rw [hr3]
          rcases u with _ | ⟨x, _ | ⟨y, _ | ⟨z, _ | ⟨w, u2⟩⟩⟩⟩
          · simp only [List.nil_append, List.cons_append, List.cons.injEq] at huv
            refine ⟨(g.1 ++ m.1, g.1, m.1), List.mem_cons_self _ _, ?_⟩
            show g.1 = _
            rw [hgs, ← huv.1, ← huv.2.1, ← huv.2.2.1]
          · exfalso
            simp only [List.nil_append, List.cons_append, List.cons.injEq] at huv
            exact absurd (huv.2.1.trans hb) (by decide)
          · exfalso
            simp only [List.nil_append, List.cons_append, List.cons.injEq] at huv
            exact hc2 huv.2.2.1.symm
          · exfalso
            simp only [List.nil_append, List.cons_append, List.cons.injEq] at huv
            exact hdn huv.2.2.2.1.symm
          · simp only [List.cons_append, List.cons.injEq] at huv
            have hrn : r.length ≤ n := by
              rw [ht] at hs
              simp only [List.length_cons] at hs
              omega
            obtain ⟨tr, htr, hetr⟩ := ih r hrn ⟨u2, v, huv.2.2.2.2⟩
            exact ⟨tr, List.mem_cons_of_mem _ htr, hetr⟩

lemma no_overlap_after_modCompounds (s : List Char) :
    ¬ overlapPat <:+: replaceModifiedGlyphs compounds modifiers s := by
  intro hcon
  have hkey : ['ଙ', '୍', 'କ'] <:+: replaceModifiedGlyphs compounds modifiers s :=
    List.IsInfix.trans ⟨[], ['୍', 'ତ'], rfl⟩ hcon
  have hpat4 : ['ଙ', '୍', 'କ', '୍'] <:+: replaceModifiedGlyphs compounds modifiers s :=
    List.IsInfix.trans ⟨[], ['ତ'], rfl⟩ hcon
  have hpat4s : ['ଙ', '୍', 'କ', '୍'] <:+: s := by
    unfold replaceModifiedGlyphs at hpat4
    exact fold_scan_infix_back (by decide) (by decide) _ s hpat4
  obtain ⟨tr, htr, he⟩ := scan_hits_overlap s.length s le_rfl hpat4s
  have hkill := fold_scan_no_overlap (scanMatches compounds modifiers s) s
    (Or.inl ⟨tr, htr, he⟩)
  unfold replaceModifiedGlyphs at hkey
  exact hkill hkey


lemma processWith_perm {pc pk pv pm : Table}
    (hc : pc.Perm compounds) (hk : pk.Perm consonants)
    (hv : pv.Perm vowels) (hm : pm.Perm modifiers) (input : List Char) :
    processWith pc pk pv pm input = process input := by
  have hmg1 : ∀ z, replaceModifiedGlyphs pc pm z =
      replaceModifiedGlyphs compounds modifiers z := fun z =>
    replaceModifiedGlyphs_perm hc uniquePre_compounds compounds_keysNodup hm
      uniquePre_modifiers z
  have hmg2 : ∀ z, replaceModifiedGlyphs pk pm z =
      replaceModifiedGlyphs consonants modifiers z := fun z =>
    replaceModifiedGlyphs_perm hk uniquePre_consonants consonants_keysNodup hm
      uniquePre_modifiers z
  have hmg3 : ∀ z, replaceModifiedGlyphs pv pm z =
      replaceModifiedGlyphs vowels modifiers z := fun z =>
    replaceModifiedGlyphs_perm hv uniquePre_vowels vowels_keysNodup hm
      uniquePre_modifiers z
  have hbk : ∀ z, bareFold pk z = bareFold consonants z := fun z =>
    foldRA_perm_single hk consonants_keyLen consonants_keysNodup
      consonants_keys_oriya
      (fun e he => wrapB_ascii (consonants_values_ascii e he)) z
  have hbv : ∀ z, bareFold pv z = bareFold vowels z := fun z =>
    foldRA_perm_single hv vowels_keyLen vowels_keysNodup vowels_keys_oriya
      (fun e he => wrapB_ascii (vowels_values_ascii e he)) z
  have hmf : ∀ z, modFold pm z = modFold modifiers z := fun z =>
    foldRA_perm_single hm modifiers_keyLen modifiers_keysNodup
      modifiers_keys_oriya (fun e he => modifiers_values_ascii e he) z
  have hbc : bareFold pc
        (replaceModifiedGlyphs compounds modifiers (input.filter isOriya)) =
      bareFold compounds
        (replaceModifiedGlyphs compounds modifiers (input.filter isOriya)) :=
    bareFold_compounds_perm hc (no_overlap_after_modCompounds _)
  show (modFold pm (bareFold pv (bareFold pk (replaceModifiedGlyphs pv pm
      (replaceModifiedGlyphs pk pm (bareFold pc
        (replaceModifiedGlyphs pc pm (input.filter isOriya)))))))).filter
      isAlphaNum
    = (modFold modifiers (bareFold vowels (bareFold consonants
        (replaceModifiedGlyphs vowels modifiers
          (replaceModifiedGlyphs consonants modifiers (bareFold compounds
            (replaceModifiedGlyphs compounds modifiers
              (input.filter isOriya)))))))).filter isAlphaNum
  rw [hmg1, hbc, hmg2, hmg3, hbk, hbv, hmf]

/-- C3: Determinism.  The Go map iteration orders used by `New` to build
the regular expression alternations and by `process` to drive the
replacement loops are unspecified; for every choice of those orders
(every permutation of the four tables) and every input word, `Encode`
returns the same triple as the canonical textual order, so repeated
calls and distinct encoder instances always agree. -/
theorem C3_determinism (pc pk pv pm : Table)
    (hc : pc.Perm compounds) (hk : pk.Perm consonants)
    (hv : pv.Perm vowels) (hm : pm.Perm modifiers) (w : String) :
    EncodeWith pc pk pv pm w = Encode w := by
  unfold EncodeWith Encode
  rw [processWith_perm hc hk hv hm w.data]

theorem C3_determinism_witness :
    EncodeWith compounds.reverse consonants.reverse vowels.reverse
      modifiers.reverse "ଅଂଶ" = Encode "ଅଂଶ" :=
  C3_determinism _ _ _ _ (List.reverse_perm compounds)
    (List.reverse_perm consonants) (List.reverse_perm vowels)
    (List.reverse_perm modifiers) "ଅଂଶ"
